import Mathlib

/-!
# Verification of the Split_Wise ledger engine (src/sw.js)

Shallow embedding of the three engine components of `src/sw.js`:

* the split calculator `computeSplits` (lines 951–1064),
* the balance aggregator `calculateNetBalances` (lines 173–200),
* the debt simplifier `calculateSimplifiedDebts` (lines 215–257).

JavaScript numbers are modelled as exact rationals (`ℚ`); the decimal
roundings performed by the source (`Math.floor(x*100)/100` and
`parseFloat(x.toFixed(2))`) are modelled explicitly by `trunc2floor`
and `round2`.  The JavaScript object used as a balance map is modelled
as an insertion-ordered association list whose values are `Option ℚ`,
with `none` standing for the IEEE `NaN` that arises in the source when
an uninitialised (`undefined`) balance is adjusted; an absent key is an
absent list entry (JS `undefined`), and the source's `== null` check is
true exactly for absent keys (it is false for `NaN`).
-/

namespace SplitWise

/-- `parseFloat(x.toFixed(2))` : round to 2 decimal places, half away
from zero for positive values (Mathlib's `round` is `⌊x + 1/2⌋`). -/
def round2 (x : ℚ) : ℚ := (round (x * 100) : ℤ) / 100

/-- `Math.floor(x * 100) / 100` from the equal-split branch. -/
def trunc2floor (x : ℚ) : ℚ := (⌊x * 100⌋ : ℤ) / 100

/-- A value representable as a whole number of cents. -/
def IsCent (x : ℚ) : Prop := ∃ k : ℤ, x * 100 = (k : ℚ)

/-! ## Split calculator (`computeSplits`, src/sw.js lines 951–1064) -/

/-- The four split modes the source dispatches on (`splitType`). -/
inductive SplitType
  | equal
  | exact
  | percent
  | shares
deriving DecidableEq

/-- The failure messages of `computeSplits`, by tag.  The source returns
`{ok:false, error: <string>}`; each constructor stands for one of the
four distinct error strings. -/
inductive SplitErr
  | negativeInput
  | sumMismatch
  | percentOutOfRange
  | zeroShares
deriving DecidableEq

/-- `{ok:true, splits}` or `{ok:false, error}`. -/
inductive SplitResult
  | ok (splits : List (String × ℚ))
  | err (e : SplitErr)
deriving DecidableEq

/-- The mode-specific per-participant inputs.  The source reads them
from the DOM (`input[name="split-amount-${pid}"]` etc., with a missing
field parsed as `0`); here they are the already-parsed numeric values. -/
structure SplitInputs where
  amountOf : String → ℚ
  percentOf : String → ℚ
  sharesOf : String → ℚ

/-- The shared per-participant loop of the percent and shares modes:
`amt = total * w / W`, overwritten by `total − sum` for the last
participant, then `amt = parseFloat(amt.toFixed(2))` and `sum += amt`. -/
def allocLoop (total W : ℚ) : List (String × ℚ) → ℚ → List (String × ℚ)
  | [], _ => []
  | [(pid, _)], sum => [(pid, round2 (total - sum))]
  | (pid, w) :: rest, sum =>
      let amt := round2 (total * w / W)
      (pid, amt) :: allocLoop total W rest (sum + amt)

/-- The equal-mode body: `basic = Math.floor((totalAmount/n)*100)/100`,
`remaining = totalAmount - basic*n`, first participant gets
`basic + remaining`, each share pushed as `parseFloat(amt.toFixed(2))`. -/
def equalSplits (total : ℚ) (ids : List String) : List (String × ℚ) :=
  let n : ℚ := (ids.length : ℚ)
  let basic := trunc2floor (total / n)
  let remaining := total - basic * n
  match ids with
  | [] => []
  | first :: rest =>
      (first, round2 (basic + remaining)) :: rest.map (fun pid => (pid, round2 basic))

/-- `computeSplits(totalAmount, participantIds, splitType)`
(src/sw.js lines 951–1064).  Each branch mirrors the corresponding
source branch; the per-participant negative check happens while the
inputs are collected, before any sum validation, so the collected loop
is modelled by a map plus an `any` negativity test. -/
def computeSplits (totalAmount : ℚ) (participantIds : List String)
    (splitType : SplitType) (inp : SplitInputs) : SplitResult :=
  match splitType with
  | .equal => .ok (equalSplits totalAmount participantIds)
  | .exact =>
      let vals := participantIds.map (fun pid => (pid, inp.amountOf pid))
      if vals.any (fun p => p.2 < 0) then .err .negativeInput
      else if 1 / 100 < |(vals.map (·.2)).sum - totalAmount| then
        .err .sumMismatch
      else .ok vals
  | .percent =>
      let percents := participantIds.map (fun pid => (pid, inp.percentOf pid))
      if percents.any (fun p => p.2 < 0) then .err .negativeInput
      else
        let totalPercent : ℚ := (percents.map (·.2)).sum
        if 1 / 2 < |totalPercent - 100| then .err .percentOutOfRange
        else .ok (allocLoop totalAmount totalPercent percents 0)
  | .shares =>
      let shares := participantIds.map (fun pid => (pid, inp.sharesOf pid))
      if shares.any (fun p => p.2 < 0) then .err .negativeInput
      else
        let totalShares : ℚ := (shares.map (·.2)).sum
        if totalShares ≤ 0 then .err .zeroShares
        else .ok (allocLoop totalAmount totalShares shares 0)

/-! ## Balance aggregator (`calculateNetBalances`, src/sw.js lines 173–200) -/

/-- A JavaScript number stored in the balance object: `some q` is a
finite number, `none` is `NaN`. -/
abbrev JsVal := Option ℚ

/-- The balance object, as an insertion-ordered association list.
An absent key models a JS `undefined` property. -/
abbrev Balances := List (String × JsVal)

/-- Property read: `balances[k]` (`none` = absent/`undefined`). -/
def lookupB (b : Balances) (k : String) : Option JsVal :=
  match b with
  | [] => none
  | (k', v) :: rest => if k' = k then some v else lookupB rest k

/-- Property write: `balances[k] = v` — updates an existing key in
place, otherwise appends (JS object insertion order). -/
def setKey (b : Balances) (k : String) (v : JsVal) : Balances :=
  match b with
  | [] => [(k, v)]
  | (k', v') :: rest => if k' = k then (k', v) :: rest else (k', v') :: setKey rest k v

/-- `balances[k] += δ` (or `-= (-δ)`): reading an absent key gives
`undefined`, and `undefined ± δ` is `NaN`; `NaN ± δ` stays `NaN`. -/
def adjust (b : Balances) (k : String) (δ : ℚ) : Balances :=
  setKey b k (match lookupB b k with
    | some (some q) => some (q + δ)
    | _ => none)

/-- `if (balances[k] == null) balances[k] = 0` — true exactly for an
absent key (`undefined == null`); false for `NaN` and for numbers. -/
def ensure (b : Balances) (k : String) : Balances :=
  match lookupB b k with
  | none => setKey b k (some 0)
  | some _ => b

/-- Entry kind tag: `type === "settlement"` vs. anything else. -/
inductive EntryKind
  | expense
  | settlement
deriving DecidableEq

/-- A ledger entry as consumed by the aggregator: `payerId`,
`participantSplits` (personId, amount) and the kind tag.  (The other
fields of the stored record — description, date, category, … — are not
read by the aggregator.) -/
structure Entry where
  payerId : String
  participantSplits : List (String × ℚ)
  kind : EntryKind

/-- One split of a normal expense:
`if (balances[p] == null) balances[p] = 0; balances[p] -= amt;`
`if (balances[payer] == null) balances[payer] = 0; balances[payer] += amt;` -/
def applyExpenseSplit (payerId : String) (b : Balances) (ps : String × ℚ) : Balances :=
  adjust (ensure (adjust (ensure b ps.1) ps.1 (-ps.2)) payerId) payerId ps.2

/-- One split of a settlement: `balances[payer] -= amt;` (with no
null-guard on the payer!) then
`if (balances[p] == null) balances[p] = 0; balances[p] += amt;` -/
def applySettlementSplit (payerId : String) (b : Balances) (ps : String × ℚ) : Balances :=
  adjust (ensure (adjust b payerId (-ps.2)) ps.1) ps.1 ps.2

/-- Process one ledger entry: entries with a falsy payer id or no
splits are skipped (`if (!payerId || !participantSplits.length) continue`). -/
def applyEntry (b : Balances) (e : Entry) : Balances :=
  if e.payerId = "" ∨ e.participantSplits = [] then b
  else
    match e.kind with
    | .settlement => e.participantSplits.foldl (applySettlementSplit e.payerId) b
    | .expense => e.participantSplits.foldl (applyExpenseSplit e.payerId) b

/-- `App.state.people.forEach((p) => (balances[p.id] = 0))`. -/
def initBalances (people : List String) : Balances :=
  people.foldl (fun b p => setKey b p (some 0)) []

/-- `calculateNetBalances()` — fold all entries over the initialised
balance object.  `people` is the list of known person ids. -/
def calculateNetBalances (people : List String) (entries : List Entry) : Balances :=
  entries.foldl applyEntry (initBalances people)

/-- The sum of all values of the balance object; `none` if any value
is `NaN` (adding `NaN` poisons a JS sum). -/
def sumValues (b : Balances) : Option ℚ :=
  b.foldr (fun p acc =>
    match p.2, acc with
    | some q, some s => some (q + s)
    | _, _ => none) (some 0)

/-- Numeric reading of the balance values (`NaN` read as 0), used to
state the zero-sum invariant for `NaN`-free balance objects. -/
def sumQ (b : Balances) : ℚ :=
  (b.map (fun p => p.2.getD 0)).sum

/-- Every stored value is an actual number (no `NaN`). -/
def AllNum (b : Balances) : Prop :=
  ∀ p ∈ b, p.2 ≠ none

/-- The aggregation invariant: no `NaN` values, and every known person
id is present. -/
def InvB (people : List String) (b : Balances) : Prop :=
  AllNum b ∧ ∀ p ∈ people, (lookupB b p).isSome

/-! ## Debt simplifier (`calculateSimplifiedDebts`, src/sw.js lines 215–257) -/

/-- A suggested transfer `{fromId, toId, amount}`. -/
structure Transfer where
  fromId : String
  toId : String
  amount : ℚ
deriving DecidableEq

/-- `creditors`: entries with `balance > 0.01`, as (id, balance). -/
def creditorsOf (bs : List (String × ℚ)) : List (String × ℚ) :=
  bs.filter (fun p => 1 / 100 < p.2)

/-- `debtors`: entries with `balance < -0.01`, as (id, −balance). -/
def debtorsOf (bs : List (String × ℚ)) : List (String × ℚ) :=
  (bs.filter (fun p => p.2 < -(1 / 100))).map (fun p => (p.1, -p.2))

/-- `.sort((a, b) => b.amount - a.amount)` — a stable sort, descending
by amount (ties keep input order).  Insertion sort with the non-strict
descending relation is stable, so it computes the same list as the
source's stable `Array.prototype.sort`. -/
def sortDesc (l : List (String × ℚ)) : List (String × ℚ) :=
  l.insertionSort (fun a b => b.2 ≤ a.2)

/-- The two-pointer greedy loop.  The state `(d, c)` holds the debtor
and creditor lists from the current pointers on, with the current
(possibly reduced) remaining amounts at the heads; advancing a pointer
is dropping a head.  `fuel` only bounds the iteration count (the loop
terminates because some pointer advances at each step, see
`greedyF_fuel_free`); every lemma below holds for any sufficient fuel. -/
def greedyF (fuel : ℕ) (d c : List (String × ℚ)) : List Transfer :=
  match fuel, d, c with
  | 0, _, _ => []
  | _ + 1, [], _ => []
  | _ + 1, _, [] => []
  | fuel + 1, (dId, dAmt) :: ds, (cId, cAmt) :: cs =>
      let pay := min dAmt cAmt
      if 1 / 100 < pay then
        let dRem := dAmt - pay
        let cRem := cAmt - pay
        let t : Transfer := ⟨dId, cId, pay⟩
        if dRem ≤ 1 / 100 then
          if cRem ≤ 1 / 100 then t :: greedyF fuel ds cs
          else t :: greedyF fuel ds ((cId, cRem) :: cs)
        else
          if cRem ≤ 1 / 100 then t :: greedyF fuel ((dId, dRem) :: ds) cs
          else t :: greedyF fuel ((dId, dRem) :: ds) ((cId, cRem) :: cs)
      else []

/-- `calculateSimplifiedDebts(netBalances)`: partition, sort both lists
descending, run the greedy loop.  The fuel `|debtors| + |creditors|`
is enough for the loop to run to its own termination condition. -/
def calculateSimplifiedDebts (bs : List (String × ℚ)) : List Transfer :=
  let debtors := sortDesc (debtorsOf bs)
  let creditors := sortDesc (creditorsOf bs)
  greedyF (debtors.length + creditors.length) debtors creditors

/-- Total amount the transfers move out of `id`. -/
def paidFrom (ts : List Transfer) (id : String) : ℚ :=
  ((ts.filter (fun t => t.fromId = id)).map (fun t => t.amount)).sum

/-- Total amount the transfers move into `id`. -/
def recvTo (ts : List Transfer) (id : String) : ℚ :=
  ((ts.filter (fun t => t.toId = id)).map (fun t => t.amount)).sum

/-- The balance map as a total function (absent ids read as 0). -/
def balFn (bs : List (String × ℚ)) (id : String) : ℚ :=
  match bs with
  | [] => 0
  | (k, v) :: rest => if k = id then v else balFn rest id

/-- Executing one transfer in the discharging direction: the payer's
balance (what they are owed) goes up by the amount they hand over, the
payee's goes down. -/
def execT (f : String → ℚ) (t : Transfer) : String → ℚ :=
  fun id =>
    if id = t.fromId then f id + t.amount
    else if id = t.toId then f id - t.amount
    else f id

/-- Executing one transfer in the direction the specification text
states ("subtract from `from`, add to `to`"). -/
def execStatedT (f : String → ℚ) (t : Transfer) : String → ℚ :=
  fun id =>
    if id = t.fromId then f id - t.amount
    else if id = t.toId then f id + t.amount
    else f id

/-! ## Rounding lemmas -/

theorem round2_sub_abs (x : ℚ) : |round2 x - x| ≤ 1 / 200 := by
  have h : |x * 100 - (round (x * 100) : ℚ)| ≤ 1 / 2 := abs_sub_round (x * 100)
  rw [abs_sub_comm] at h
  have : round2 x - x = ((round (x * 100) : ℚ) - x * 100) / 100 := by
    unfold round2; ring
  rw [this, abs_div]
  have h100 : |(100 : ℚ)| = 100 := by norm_num
  rw [h100]
  linarith [h]

theorem round2_eq_of_isCent {x : ℚ} (h : IsCent x) : round2 x = x := by
  obtain ⟨k, hk⟩ := h
  unfold round2
  rw [hk, round_intCast]
  field_simp at hk ⊢
  linarith [hk]

theorem isCent_round2 (x : ℚ) : IsCent (round2 x) := by
  refine ⟨round (x * 100), ?_⟩
  unfold round2
  field_simp

theorem isCent_trunc2floor (x : ℚ) : IsCent (trunc2floor x) := by
  refine ⟨⌊x * 100⌋, ?_⟩
  unfold trunc2floor
  field_simp

theorem IsCent.add {x y : ℚ} (hx : IsCent x) (hy : IsCent y) : IsCent (x + y) := by
  obtain ⟨k, hk⟩ := hx; obtain ⟨m, hm⟩ := hy
  exact ⟨k + m, by push_cast; rw [add_mul, hk, hm]⟩

theorem IsCent.sub {x y : ℚ} (hx : IsCent x) (hy : IsCent y) : IsCent (x - y) := by
  obtain ⟨k, hk⟩ := hx; obtain ⟨m, hm⟩ := hy
  exact ⟨k - m, by push_cast; rw [sub_mul, hk, hm]⟩

theorem IsCent.natMul {x : ℚ} (hx : IsCent x) (n : ℕ) : IsCent (x * n) := by
  obtain ⟨k, hk⟩ := hx
  exact ⟨k * n, by push_cast; rw [mul_right_comm, hk]⟩

/-! ## Split calculator lemmas -/

theorem allocLoop_sum (total W : ℚ) :
    ∀ (ws : List (String × ℚ)) (s : ℚ), ws ≠ [] →
      |s + ((allocLoop total W ws s).map (fun p => p.2)).sum - total| ≤ 1 / 200
  | [], _, h => absurd rfl h
  | [(pid, w)], s, _ => by
      have := round2_sub_abs (total - s)
      simp only [allocLoop, List.map_cons, List.map_nil, List.sum_cons, List.sum_nil]
      rw [show s + (round2 (total - s) + 0) - total
            = round2 (total - s) - (total - s) by ring]
      exact this
  | (pid, w) :: (q :: rest), s, _ => by
      have ih := allocLoop_sum total W (q :: rest) (s + round2 (total * w / W))
        (List.cons_ne_nil _ _)
      simp only [allocLoop, List.map_cons, List.sum_cons]
      rw [show s + (round2 (total * w / W)
            + ((allocLoop total W (q :: rest) (s + round2 (total * w / W))).map
                (fun p => p.2)).sum) - total
          = s + round2 (total * w / W)
            + ((allocLoop total W (q :: rest) (s + round2 (total * w / W))).map
                (fun p => p.2)).sum - total by ring]
      exact ih

theorem allocLoop_sum_exact (total W : ℚ) :
    ∀ (ws : List (String × ℚ)) (s : ℚ), ws ≠ [] → IsCent (total - s) →
      s + ((allocLoop total W ws s).map (fun p => p.2)).sum = total
  | [], _, h, _ => absurd rfl h
  | [(pid, w)], s, _, hc => by
      simp only [allocLoop, List.map_cons, List.map_nil, List.sum_cons, List.sum_nil]
      rw [round2_eq_of_isCent hc]
      ring
  | (pid, w) :: (q :: rest), s, _, hc => by
      have hc' : IsCent (total - (s + round2 (total * w / W))) := by
        have := hc.sub (isCent_round2 (total * w / W))
        rw [show total - s - round2 (total * w / W)
              = total - (s + round2 (total * w / W)) by ring] at this
        exact this
      have ih := allocLoop_sum_exact total W (q :: rest) (s + round2 (total * w / W))
        (List.cons_ne_nil _ _) hc'
      simp only [allocLoop, List.map_cons, List.sum_cons]
      rw [show s + (round2 (total * w / W)
            + ((allocLoop total W (q :: rest) (s + round2 (total * w / W))).map
                (fun p => p.2)).sum)
          = s + round2 (total * w / W)
            + ((allocLoop total W (q :: rest) (s + round2 (total * w / W))).map
                (fun p => p.2)).sum by ring]
      exact ih

theorem equalSplits_cons (t : ℚ) (a : String) (rest : List String) :
    equalSplits t (a :: rest)
      = (a, round2 (trunc2floor (t / ((a :: rest).length : ℚ))
            + (t - trunc2floor (t / ((a :: rest).length : ℚ)) * ((a :: rest).length : ℚ))))
        :: rest.map (fun pid => (pid, trunc2floor (t / ((a :: rest).length : ℚ)))) := by
  simp only [equalSplits]
  congr 1
  apply List.map_congr_left
  intro pid _
  rw [round2_eq_of_isCent (isCent_trunc2floor _)]

theorem equalSplits_sum (t : ℚ) (a : String) (rest : List String) :
    |((equalSplits t (a :: rest)).map (fun p => p.2)).sum - t| ≤ 1 / 200 := by
  rw [equalSplits_cons]
  set n : ℚ := ((a :: rest).length : ℚ) with hn
  set basic := trunc2floor (t / n) with hb
  have hmap : (rest.map (fun pid => (pid, basic))).map (fun p => p.2)
      = rest.map (fun _ => basic) := by
    rw [List.map_map]; rfl
  simp only [List.map_cons, List.sum_cons, hmap]
  have hconst : (rest.map (fun _ => basic)).sum = (rest.length : ℚ) * basic := by
    induction rest with
    | nil => simp
    | cons x xs ih => simp [ih]; ring
  rw [hconst]
  have hnlen : n = (rest.length : ℚ) + 1 := by
    rw [hn]; simp [List.length_cons]
  have key : round2 (basic + (t - basic * n)) + (rest.length : ℚ) * basic - t
      = round2 (basic + (t - basic * n)) - (basic + (t - basic * n)) := by
    rw [hnlen]; ring
  rw [key]
  exact round2_sub_abs _

/-- C1: for every valid input to `computeSplits` (positive total,
non-empty participant list, inputs passing the mode's validation —
i.e. the call returns `ok`), in each of the four modes the sum of the
returned split amounts equals the requested total to within 0.01. -/
theorem C1_conservation (t : ℚ) (ids : List String) (ty : SplitType)
    (inp : SplitInputs) (splits : List (String × ℚ))
    (_ht : 0 < t) (hids : ids ≠ [])
    (h : computeSplits t ids ty inp = .ok splits) :
    |(splits.map (fun p => p.2)).sum - t| ≤ 1 / 100 := by
  cases ty with
  | equal =>
      simp only [computeSplits, SplitResult.ok.injEq] at h
      subst h
      obtain ⟨a, rest, rfl⟩ := List.exists_cons_of_ne_nil hids
      have := equalSplits_sum t a rest
      linarith [this]
  | exact =>
      simp only [computeSplits] at h
      split_ifs at h with h1 h2
      · simp only [SplitResult.ok.injEq] at h
        subst h
        push_neg at h2
        exact h2
  | percent =>
      simp only [computeSplits] at h
      split_ifs at h with h1 h2
      · simp only [SplitResult.ok.injEq] at h
        subst h
        have hne : ids.map (fun pid => (pid, inp.percentOf pid)) ≠ [] := by
          simpa using hids
        have := allocLoop_sum t ((ids.map (fun pid => (pid, inp.percentOf pid))).map
          (fun p => p.2)).sum (ids.map (fun pid => (pid, inp.percentOf pid))) 0 hne
        rw [zero_add] at this
        linarith [this]
  | shares =>
      simp only [computeSplits] at h
      split_ifs at h with h1 h2
      · simp only [SplitResult.ok.injEq] at h
        subst h
        have hne : ids.map (fun pid => (pid, inp.sharesOf pid)) ≠ [] := by
          simpa using hids
        have := allocLoop_sum t ((ids.map (fun pid => (pid, inp.sharesOf pid))).map
          (fun p => p.2)).sum (ids.map (fun pid => (pid, inp.sharesOf pid))) 0 hne
        rw [zero_add] at this
        linarith [this]

/-- Witness for C1 at the concrete input `computeSplits 10 [A,B,C] equal`. -/
theorem C1_conservation_witness :
    |((SplitWise.equalSplits 10 ["A", "B", "C"]).map (fun p => p.2)).sum - 10| ≤ 1 / 100 :=
  C1_conservation 10 ["A", "B", "C"] .equal ⟨fun _ => 0, fun _ => 0, fun _ => 0⟩
    (equalSplits 10 ["A", "B", "C"]) (by norm_num) (by simp) rfl

/-- C6 (amended): in equal mode `computeSplits` divides the total by
the participant count, truncates the share to 2 decimal places
(`basic`), gives every non-first participant exactly `basic`, and
gives the first participant `basic` plus the leftover remainder
`total − basic·n`, rounded to 2 decimal places — for a total that is a
whole number of cents (as here, hypothesis `hc`) the rounding is exact
and the first participant absorbs the entire leftover. -/
theorem C6_equal_mode (t : ℚ) (a : String) (rest : List String) (inp : SplitInputs)
    (hc : IsCent t) :
    computeSplits t (a :: rest) .equal inp
      = .ok ((a, trunc2floor (t / ((a :: rest).length : ℚ))
                + (t - trunc2floor (t / ((a :: rest).length : ℚ))
                    * ((a :: rest).length : ℚ)))
            :: rest.map (fun pid => (pid, trunc2floor (t / ((a :: rest).length : ℚ))))) := by
  have hcb : IsCent (trunc2floor (t / ((a :: rest).length : ℚ))
      + (t - trunc2floor (t / ((a :: rest).length : ℚ)) * ((a :: rest).length : ℚ))) := by
    have h1 := isCent_trunc2floor (t / ((a :: rest).length : ℚ))
    have h2 := h1.natMul (a :: rest).length
    exact h1.add (hc.sub h2)
  show SplitResult.ok (equalSplits t (a :: rest)) = _
  rw [equalSplits_cons, round2_eq_of_isCent hcb]

/-- Witness for C6 at the spec's example: `computeSplits(10, [A,B,C],
equal)` returns A=3.34, B=3.33, C=3.33 (sum 10.00). -/
theorem C6_equal_mode_witness :
    IsCent 10
    ∧ computeSplits 10 ["A", "B", "C"] .equal ⟨fun _ => 0, fun _ => 0, fun _ => 0⟩
      = .ok [("A", 167/50), ("B", 333/100), ("C", 333/100)] := by
  refine ⟨⟨1000, by norm_num⟩, ?_⟩
  rw [C6_equal_mode 10 "A" ["B", "C"] ⟨fun _ => 0, fun _ => 0, fun _ => 0⟩
    ⟨1000, by norm_num⟩]
  norm_num [trunc2floor]

/-- Counterexample to C6 as stated: for the valid input
`computeSplits(0.004, [A], equal)` the first (only) participant would
have to receive the entire leftover, i.e. the whole total 0.004, but
the source rounds the first share to 2 decimals and returns 0. -/
theorem C6_counterexample :
    computeSplits (1/250) ["A"] .equal ⟨fun _ => 0, fun _ => 0, fun _ => 0⟩
      = .ok [("A", 0)]
    ∧ (0 : ℚ) ≠ 1/250 := by
  constructor
  · show SplitResult.ok (equalSplits (1/250) ["A"]) = _
    norm_num [equalSplits, trunc2floor, round2, round_eq]
  · norm_num

/-- C7 (amended): in percent mode `computeSplits` (i) rejects any
negative percentage with the negative-input error, (ii) fails with the
percent-out-of-range error when the percentages' sum differs from 100
by more than 0.5, (iii) otherwise returns splits (each non-last share
`round2 (total·percent/sumOfPercents)`, the last forced to the total
minus the previously assigned shares and then rounded to 2 decimals)
whose sum equals the total exactly whenever the total is a whole
number of cents, and (iv) on the spec's example
`computeSplits(90, [A,B], percent, {A:33.33, B:66.67})` returns splits
`[A ↦ 30, B ↦ 60]` totalling exactly 90. -/
theorem C7_percent_mode (t : ℚ) (ids : List String) (inp : SplitInputs) :
    ((∃ pid ∈ ids, inp.percentOf pid < 0) →
        computeSplits t ids .percent inp = .err .negativeInput)
    ∧ ((∀ pid ∈ ids, 0 ≤ inp.percentOf pid) →
        1/2 < |((ids.map (fun pid => inp.percentOf pid)).sum : ℚ) - 100| →
        computeSplits t ids .percent inp = .err .percentOutOfRange)
    ∧ ((∀ pid ∈ ids, 0 ≤ inp.percentOf pid) →
        |((ids.map (fun pid => inp.percentOf pid)).sum : ℚ) - 100| ≤ 1/2 →
        ids ≠ [] → IsCent t →
        ∃ splits, computeSplits t ids .percent inp = .ok splits
          ∧ (splits.map (fun p => p.2)).sum = t)
    ∧ computeSplits 90 ["A", "B"] .percent
        ⟨fun _ => 0, fun pid => if pid = "A" then 3333/100 else 6667/100, fun _ => 0⟩
      = .ok [("A", 30), ("B", 60)] := by
  have hmap : ((ids.map (fun pid => (pid, inp.percentOf pid))).map (fun p => p.2))
      = ids.map (fun pid => inp.percentOf pid) := by
    rw [List.map_map]; rfl
  have hanyOf : (∀ pid ∈ ids, 0 ≤ inp.percentOf pid) →
      ((ids.map (fun pid => (pid, inp.percentOf pid))).any (fun p => p.2 < 0)) = false := by
    intro hpos
    simp only [List.any_eq_false, List.mem_map]
    rintro p hp
    obtain ⟨q, hq, rfl⟩ := hp
    simpa using not_lt.mpr (hpos q hq)
  refine ⟨?_, ?_, ?_, ?_⟩
  · intro hneg
    have hany : ((ids.map (fun pid => (pid, inp.percentOf pid))).any (fun p => p.2 < 0))
        = true := by
      simp only [List.any_eq_true]
      obtain ⟨pid, hpid, hlt⟩ := hneg
      exact ⟨(pid, inp.percentOf pid), List.mem_map_of_mem _ hpid, by simpa using hlt⟩
    simp only [computeSplits, hany, if_true]
  · intro hpos hrange
    simp only [computeSplits, hanyOf hpos, Bool.false_eq_true, if_false]
    rw [hmap, if_pos hrange]
  · intro hpos hrange hne hcent
    refine ⟨allocLoop t ((ids.map (fun pid => inp.percentOf pid)).sum)
      (ids.map (fun pid => (pid, inp.percentOf pid))) 0, ?_, ?_⟩
    · simp only [computeSplits, hanyOf hpos, Bool.false_eq_true, if_false]
      rw [hmap, if_neg (not_lt.mpr hrange)]
    · have hne' : ids.map (fun pid => (pid, inp.percentOf pid)) ≠ [] := by
        simpa using hne
      have hcent' : IsCent (t - 0) := by rwa [sub_zero]
      have := allocLoop_sum_exact t ((ids.map (fun pid => inp.percentOf pid)).sum)
        (ids.map (fun pid => (pid, inp.percentOf pid))) 0 hne' hcent'
      linarith [this]
  · simp [computeSplits, allocLoop, round2, round_eq]
    norm_num

/-- Witness for C7 at the spec's example (hypotheses of part (iii)
discharged at `t = 90`, ids `[A,B]`, percents `{A:33.33, B:66.67}`). -/
theorem C7_percent_mode_witness :
    ∃ splits, computeSplits 90 ["A", "B"] .percent
        ⟨fun _ => 0, fun pid => if pid = "A" then 3333/100 else 6667/100, fun _ => 0⟩
      = .ok splits ∧ (splits.map (fun p => p.2)).sum = 90 :=
  (C7_percent_mode 90 ["A", "B"]
      ⟨fun _ => 0, fun pid => if pid = "A" then 3333/100 else 6667/100, fun _ => 0⟩).2.2.1
    (by intro pid hpid; fin_cases hpid <;> simp <;> norm_num)
    (by simp; norm_num) (by simp) ⟨9000, by norm_num⟩

/-- Counterexample to C7 as stated: for the valid percent-mode input
`computeSplits(0.004, [A], {A: 100})` the claim promises a split sum
exactly equal to the total 0.004, but the forced last share is rounded
to 2 decimals and the source returns the single split 0 (sum 0). -/
theorem C7_counterexample :
    computeSplits (1/250) ["A"] .percent ⟨fun _ => 0, fun _ => 100, fun _ => 0⟩
      = .ok [("A", 0)]
    ∧ (0 : ℚ) ≠ 1/250 := by
  constructor
  · simp [computeSplits, allocLoop, round2, round_eq]
    norm_num
  · norm_num

/-- C9 (amended): `computeSplits` performs no empty-participants check
and has no EmptyParticipants error.  With zero participants: equal
mode succeeds with an empty split list; percent mode fails with the
percent-out-of-range error; shares mode fails with the zero-shares
error; exact mode fails with the sum-mismatch error whenever
`|total| > 0.01` (and also succeeds with an empty list otherwise). -/
theorem C9_empty_participants (t : ℚ) (inp : SplitInputs) :
    computeSplits t [] .equal inp = .ok []
    ∧ computeSplits t [] .percent inp = .err .percentOutOfRange
    ∧ computeSplits t [] .shares inp = .err .zeroShares
    ∧ (1/100 < |t| → computeSplits t [] .exact inp = .err .sumMismatch) := by
  refine ⟨rfl, ?_, ?_, ?_⟩
  · simp only [computeSplits, List.map_nil, List.any_nil, Bool.false_eq_true, if_false,
      List.sum_nil]
    norm_num
  · simp only [computeSplits, List.map_nil, List.any_nil, Bool.false_eq_true, if_false,
      List.sum_nil]
    norm_num
  · intro ht
    simp only [computeSplits, List.map_nil, List.any_nil, Bool.false_eq_true, if_false,
      List.sum_nil]
    rw [if_pos]
    rwa [zero_sub, abs_neg]

/-- Witness for C9 at `t = 10` (the empty-participant calls return the
listed results; for exact mode `|10| > 0.01` and the call fails with
the sum-mismatch error, not an empty-participants error). -/
theorem C9_empty_participants_witness :
    (1/100 < |(10 : ℚ)|)
    ∧ computeSplits 10 [] .exact ⟨fun _ => 0, fun _ => 0, fun _ => 0⟩
      = .err .sumMismatch :=
  ⟨by norm_num,
    (C9_empty_participants 10 ⟨fun _ => 0, fun _ => 0, fun _ => 0⟩).2.2.2 (by norm_num)⟩

/-- Counterexample to C9 as stated: with zero participants and the
valid positive total 10, equal mode returns a success result with an
empty split list — not an error of any kind. -/
theorem C9_counterexample :
    computeSplits 10 [] .equal ⟨fun _ => 0, fun _ => 0, fun _ => 0⟩ = .ok []
    ∧ ∀ e : SplitErr,
        computeSplits 10 [] .equal ⟨fun _ => 0, fun _ => 0, fun _ => 0⟩
          ≠ .err e := by
  refine ⟨rfl, ?_⟩
  intro e h
  exact SplitResult.noConfusion h

/-! ## Balance-object lemmas -/

theorem lookupB_setKey_self (b : Balances) (k : String) (v : JsVal) :
    lookupB (setKey b k v) k = some v := by
  induction b with
  | nil => simp [setKey, lookupB]
  | cons p rest ih =>
      obtain ⟨k', v'⟩ := p
      by_cases h : k' = k
      · simp [setKey, h, lookupB]
      · simp [setKey, h, lookupB, ih]

theorem lookupB_setKey_of_ne (b : Balances) {k k' : String} (h : k ≠ k') (v : JsVal) :
    lookupB (setKey b k v) k' = lookupB b k' := by
  induction b with
  | nil => simp [setKey, lookupB, h]
  | cons p rest ih =>
      obtain ⟨k'', v''⟩ := p
      by_cases h2 : k'' = k
      · subst h2
        simp [setKey, lookupB, h]
      · simp [setKey, h2, lookupB, ih]

theorem isSome_lookupB_setKey (b : Balances) (k k' : String) (v : JsVal)
    (h : (lookupB b k).isSome) : (lookupB (setKey b k' v) k).isSome := by
  by_cases hk : k' = k
  · subst hk
    rw [lookupB_setKey_self]
    rfl
  · rwa [lookupB_setKey_of_ne b (fun hh => hk hh) v]

theorem lookupB_mem {b : Balances} {k : String} {v : JsVal}
    (h : lookupB b k = some v) : (k, v) ∈ b := by
  induction b with
  | nil => simp [lookupB] at h
  | cons p rest ih =>
      obtain ⟨k', v'⟩ := p
      by_cases h2 : k' = k
      · subst h2
        simp [lookupB] at h
        subst h
        exact List.mem_cons_self _ _
      · simp [lookupB, h2] at h
        exact List.mem_cons_of_mem _ (ih h)

theorem allNum_setKey {b : Balances} (h : AllNum b) (k : String) {v : JsVal}
    (hv : v ≠ none) : AllNum (setKey b k v) := by
  induction b with
  | nil =>
      intro p hp
      simp [setKey] at hp
      subst hp
      exact hv
  | cons q rest ih =>
      obtain ⟨k', v'⟩ := q
      have hrest : AllNum rest := fun p hp => h p (List.mem_cons_of_mem _ hp)
      by_cases h2 : k' = k
      · intro p hp
        simp only [setKey, h2, if_pos] at hp
        rcases List.mem_cons.mp hp with h3 | h3
        · subst h3
          exact hv
        · exact hrest p h3
      · intro p hp
        simp only [setKey, h2, if_neg, if_false] at hp
        rcases List.mem_cons.mp hp with h3 | h3
        · subst h3
          exact h _ (List.mem_cons_self _ _)
        · exact ih hrest p h3

theorem sumQ_nil : sumQ [] = 0 := rfl

theorem sumQ_cons (p : String × JsVal) (rest : Balances) :
    sumQ (p :: rest) = p.2.getD 0 + sumQ rest := by
  simp [sumQ]

theorem sumQ_setKey_absent {b : Balances} {k : String}
    (h : lookupB b k = none) (v : JsVal) :
    sumQ (setKey b k v) = sumQ b + v.getD 0 := by
  induction b with
  | nil => simp [setKey, sumQ]
  | cons p rest ih =>
      obtain ⟨k', v'⟩ := p
      by_cases h2 : k' = k
      · simp [lookupB, h2] at h
      · simp only [lookupB, h2, if_neg, if_false] at h
        simp only [setKey, h2, if_neg, if_false]
        rw [sumQ_cons, sumQ_cons, ih h]
        ring

theorem sumQ_setKey_present {b : Balances} {k : String} {w : JsVal}
    (h : lookupB b k = some w) (v : JsVal) :
    sumQ (setKey b k v) = sumQ b - w.getD 0 + v.getD 0 := by
  induction b with
  | nil => simp [lookupB] at h
  | cons p rest ih =>
      obtain ⟨k', v'⟩ := p
      by_cases h2 : k' = k
      · subst h2
        simp only [lookupB, if_pos] at h
        have hw : v' = w := by injection h
        subst hw
        simp only [setKey, if_pos]
        rw [sumQ_cons, sumQ_cons]
        ring
      · simp only [lookupB, h2, if_neg, if_false] at h
        simp only [setKey, h2, if_neg, if_false]
        rw [sumQ_cons, sumQ_cons, ih h]
        ring

theorem lookupB_some_of_allNum {b : Balances} {k : String}
    (h : AllNum b) (hs : (lookupB b k).isSome) :
    ∃ q : ℚ, lookupB b k = some (some q) := by
  obtain ⟨v, hv⟩ := Option.isSome_iff_exists.mp hs
  have hne := h _ (lookupB_mem hv)
  cases v with
  | none => exact absurd rfl hne
  | some q => exact ⟨q, hv⟩

theorem adjust_eq_of_some {b : Balances} {k : String} {q : ℚ}
    (h : lookupB b k = some (some q)) (δ : ℚ) :
    adjust b k δ = setKey b k (some (q + δ)) := by
  simp [adjust, h]

theorem ensure_of_isSome {b : Balances} {k : String}
    (h : (lookupB b k).isSome) : ensure b k = b := by
  unfold ensure
  obtain ⟨v, hv⟩ := Option.isSome_iff_exists.mp h
  rw [hv]

theorem ensure_of_absent {b : Balances} {k : String}
    (h : lookupB b k = none) : ensure b k = setKey b k (some 0) := by
  unfold ensure
  rw [h]

theorem ensure_allNum {b : Balances} (h : AllNum b) (k : String) :
    AllNum (ensure b k) := by
  cases hl : lookupB b k with
  | none =>
      rw [ensure_of_absent hl]
      exact allNum_setKey h k (by simp)
  | some v =>
      rw [ensure_of_isSome (by rw [hl]; rfl)]
      exact h

theorem sumQ_ensure (b : Balances) (k : String) : sumQ (ensure b k) = sumQ b := by
  cases hl : lookupB b k with
  | none =>
      rw [ensure_of_absent hl, sumQ_setKey_absent hl]
      simp
  | some v =>
      rw [ensure_of_isSome (by rw [hl]; rfl)]

theorem isSome_lookupB_ensure_self (b : Balances) (k : String) :
    (lookupB (ensure b k) k).isSome := by
  cases hl : lookupB b k with
  | none =>
      rw [ensure_of_absent hl, lookupB_setKey_self]
      rfl
  | some v =>
      rw [ensure_of_isSome (by rw [hl]; rfl), hl]
      rfl

theorem isSome_lookupB_ensure (b : Balances) (k k' : String)
    (h : (lookupB b k').isSome) : (lookupB (ensure b k) k').isSome := by
  cases hl : lookupB b k with
  | none =>
      rw [ensure_of_absent hl]
      exact isSome_lookupB_setKey b k' k _ h
  | some v =>
      rwa [ensure_of_isSome (by rw [hl]; rfl)]

theorem adjust_allNum {b : Balances} {k : String} {q : ℚ}
    (hq : lookupB b k = some (some q)) (h : AllNum b) (δ : ℚ) :
    AllNum (adjust b k δ) := by
  rw [adjust_eq_of_some hq]
  exact allNum_setKey h k (by simp)

theorem sumQ_adjust {b : Balances} {k : String} {q : ℚ}
    (hq : lookupB b k = some (some q)) (δ : ℚ) :
    sumQ (adjust b k δ) = sumQ b + δ := by
  rw [adjust_eq_of_some hq, sumQ_setKey_present hq]
  simp only [Option.getD_some]
  ring

theorem isSome_lookupB_adjust (b : Balances) (k k' : String) (δ : ℚ)
    (h : (lookupB b k').isSome) : (lookupB (adjust b k δ) k').isSome := by
  unfold adjust
  exact isSome_lookupB_setKey b k' k _ h

theorem adjust_step {people : List String} {b : Balances} {k : String}
    (h : InvB people b) (hk : (lookupB b k).isSome) (δ : ℚ) :
    InvB people (adjust b k δ)
    ∧ sumQ (adjust b k δ) = sumQ b + δ
    ∧ (lookupB (adjust b k δ) k).isSome := by
  obtain ⟨q, hq⟩ := lookupB_some_of_allNum h.1 hk
  refine ⟨⟨adjust_allNum hq h.1 δ, fun p hp => isSome_lookupB_adjust b k p δ (h.2 p hp)⟩,
    sumQ_adjust hq δ, ?_⟩
  rw [adjust_eq_of_some hq, lookupB_setKey_self]
  rfl

theorem ensure_step {people : List String} {b : Balances}
    (h : InvB people b) (k : String) :
    InvB people (ensure b k)
    ∧ sumQ (ensure b k) = sumQ b
    ∧ (lookupB (ensure b k) k).isSome := by
  exact ⟨⟨ensure_allNum h.1 k, fun p hp => isSome_lookupB_ensure b k p (h.2 p hp)⟩,
    sumQ_ensure b k, isSome_lookupB_ensure_self b k⟩

theorem applyExpenseSplit_inv (people : List String) (payer : String)
    (b : Balances) (ps : String × ℚ) (h : InvB people b) :
    InvB people (applyExpenseSplit payer b ps)
    ∧ sumQ (applyExpenseSplit payer b ps) = sumQ b := by
  obtain ⟨h1, hs1, hk1⟩ := ensure_step h ps.1
  obtain ⟨h2, hs2, _⟩ := adjust_step h1 hk1 (-ps.2)
  obtain ⟨h3, hs3, hk3⟩ := ensure_step h2 payer
  obtain ⟨h4, hs4, _⟩ := adjust_step h3 hk3 ps.2
  refine ⟨h4, ?_⟩
  unfold applyExpenseSplit
  rw [hs4, hs3, hs2, hs1]
  ring

theorem applySettlementSplit_inv (people : List String) (payer : String)
    (b : Balances) (ps : String × ℚ) (hp : payer ∈ people) (h : InvB people b) :
    InvB people (applySettlementSplit payer b ps)
    ∧ sumQ (applySettlementSplit payer b ps) = sumQ b := by
  obtain ⟨h1, hs1, _⟩ := adjust_step h (h.2 payer hp) (-ps.2)
  obtain ⟨h2, hs2, hk2⟩ := ensure_step h1 ps.1
  obtain ⟨h3, hs3, _⟩ := adjust_step h2 hk2 ps.2
  refine ⟨h3, ?_⟩
  unfold applySettlementSplit
  rw [hs3, hs2, hs1]
  ring

theorem foldl_preserve {α β : Type} (P : β → Prop) (f : β → α → β) :
    ∀ (l : List α) (b : β), P b → (∀ x ∈ l, ∀ b', P b' → P (f b' x)) →
      P (l.foldl f b)
  | [], _, hb, _ => hb
  | x :: xs, b, hb, hf =>
      foldl_preserve P f xs (f b x) (hf x (List.mem_cons_self x xs) b hb)
        (fun y hy b' hb' => hf y (List.mem_cons_of_mem x hy) b' hb')

theorem applyEntry_inv (people : List String) (e : Entry) (b : Balances)
    (hp : e.kind = .settlement → e.payerId ∈ people)
    (h : InvB people b ∧ sumQ b = 0) :
    InvB people (applyEntry b e) ∧ sumQ (applyEntry b e) = 0 := by
  unfold applyEntry
  by_cases hskip : e.payerId = "" ∨ e.participantSplits = []
  · rw [if_pos hskip]
    exact h
  · rw [if_neg hskip]
    cases hk : e.kind with
    | settlement =>
        exact foldl_preserve (fun b => InvB people b ∧ sumQ b = 0)
          (applySettlementSplit e.payerId) e.participantSplits b h
          (fun ps _ b' hb' =>
            have step := applySettlementSplit_inv people e.payerId b' ps (hp hk) hb'.1
            ⟨step.1, step.2.trans hb'.2⟩)
    | expense =>
        exact foldl_preserve (fun b => InvB people b ∧ sumQ b = 0)
          (applyExpenseSplit e.payerId) e.participantSplits b h
          (fun ps _ b' hb' =>
            have step := applyExpenseSplit_inv people e.payerId b' ps hb'.1
            ⟨step.1, step.2.trans hb'.2⟩)

theorem initBalances_val_zero (people : List String) :
    ∀ p ∈ initBalances people, p.2 = some 0 := by
  unfold initBalances
  have main : ∀ (l : List String) (b : Balances), (∀ p ∈ b, p.2 = some 0) →
      ∀ p ∈ l.foldl (fun b p => setKey b p (some 0)) b, p.2 = some 0 := by
    intro l
    induction l with
    | nil => intro b hb; exact hb
    | cons x xs ih =>
        intro b hb
        apply ih
        intro p hp
        induction b with
        | nil =>
            simp [setKey] at hp
            rw [hp]
        | cons q rest ihb =>
            obtain ⟨k', v'⟩ := q
            by_cases h2 : k' = x
            · simp only [setKey, h2, if_pos] at hp
              rcases List.mem_cons.mp hp with h3 | h3
              · simp [h3]
              · exact hb _ (List.mem_cons_of_mem _ h3)
            · simp only [setKey, h2, if_neg, if_false] at hp
              rcases List.mem_cons.mp hp with h3 | h3
              · rw [h3]
                exact hb _ (List.mem_cons_self _ _)
              · exact ihb (fun p hp => hb p (List.mem_cons_of_mem _ hp)) h3
  exact main people [] (by intro p hp; simp at hp)

theorem initBalances_mem_isSome (people : List String) :
    ∀ k ∈ people, (lookupB (initBalances people) k).isSome := by
  unfold initBalances
  have main : ∀ (l : List String) (b : Balances) (k : String),
      (k ∈ l ∨ (lookupB b k).isSome) →
      (lookupB (l.foldl (fun b p => setKey b p (some 0)) b) k).isSome := by
    intro l
    induction l with
    | nil =>
        intro b k hk
        rcases hk with hk | hk
        · simp at hk
        · exact hk
    | cons x xs ih =>
        intro b k hk
        apply ih
        by_cases hx : k = x
        · subst hx
          right
          rw [lookupB_setKey_self]
          rfl
        · rcases hk with hk | hk
          · rcases List.mem_cons.mp hk with h3 | h3
            · exact absurd h3 hx
            · exact Or.inl h3
          · right
            exact isSome_lookupB_setKey b k x _ hk
  intro k hk
  exact main people [] k (Or.inl hk)

theorem sumQ_of_val_zero {b : Balances} (h : ∀ p ∈ b, p.2 = some 0) :
    sumQ b = 0 := by
  induction b with
  | nil => rfl
  | cons p rest ih =>
      rw [sumQ_cons, ih (fun p hp => h p (List.mem_cons_of_mem _ hp)),
        h p (List.mem_cons_self _ _)]
      simp

theorem allNum_of_val_zero {b : Balances} (h : ∀ p ∈ b, p.2 = some 0) :
    AllNum b := by
  intro p hp
  rw [h p hp]
  simp

theorem sumValues_eq_sumQ {b : Balances} (h : AllNum b) :
    sumValues b = some (sumQ b) := by
  induction b with
  | nil => rfl
  | cons p rest ih =>
      have hrest := ih (fun p hp => h p (List.mem_cons_of_mem _ hp))
      have hp := h p (List.mem_cons_self _ _)
      cases hv : p.2 with
      | none => exact absurd hv hp
      | some q =>
          show (match p.2, sumValues rest with
            | some q, some s => some (q + s)
            | _, _ => none) = _
          rw [hv, hrest, sumQ_cons, hv]
          rfl

/-- C5 (amended): for every entry set in which each settlement entry's
payer is a known person (so the unguarded `balances[payerId] -=`
update of the settlement branch never touches an uninitialised key and
no `NaN` arises), the sum of all values of the aggregated balance
object is exactly 0. -/
theorem C5_zero_sum (people : List String) (entries : List Entry)
    (H : ∀ e ∈ entries, e.kind = .settlement → e.payerId ∈ people) :
    sumValues (calculateNetBalances people entries) = some 0 := by
  have hinit : InvB people (initBalances people) ∧ sumQ (initBalances people) = 0 := by
    refine ⟨⟨allNum_of_val_zero (initBalances_val_zero people),
      initBalances_mem_isSome people⟩, sumQ_of_val_zero (initBalances_val_zero people)⟩
  have hfold := foldl_preserve (fun b => InvB people b ∧ sumQ b = 0) applyEntry
    entries (initBalances people) hinit
    (fun e he b hb => applyEntry_inv people e b (H e he) hb)
  unfold calculateNetBalances
  rw [sumValues_eq_sumQ hfold.1.1, hfold.2]

/-- C3 (code bug): evaluating the aggregator at the spec's worked
example.  The expense part behaves as claimed: one expense of 60 paid
by A with splits [A:20, B:20, C:20] yields {A:+40, B:−20, C:−20}.  But
after the settlement in which B pays A 20 (payer `B`, split `[A:20]`),
the source's settlement branch performs `balances[B] -= 20` and
`balances[A] += 20` and yields {A:+60, B:−40, C:−20} — not the claimed
{A:+20, B:0, C:−20}.  The code increases the recorded debt instead of
discharging it, contradicting its own comment ("which reduces their
previous debts"). -/
theorem C3_sign_conventions :
    calculateNetBalances ["A", "B", "C"]
      [⟨"A", [("A", 20), ("B", 20), ("C", 20)], .expense⟩]
      = [("A", some 40), ("B", some (-20)), ("C", some (-20))]
    ∧ calculateNetBalances ["A", "B", "C"]
      [⟨"A", [("A", 20), ("B", 20), ("C", 20)], .expense⟩,
        ⟨"B", [("A", 20)], .settlement⟩]
      = [("A", some 60), ("B", some (-40)), ("C", some (-20))] := by
  constructor
  · simp only [calculateNetBalances, initBalances, applyEntry, applyExpenseSplit,
      applySettlementSplit, adjust, ensure, setKey, lookupB, List.foldl]
    simp
    norm_num
  · simp only [calculateNetBalances, initBalances, applyEntry, applyExpenseSplit,
      applySettlementSplit, adjust, ensure, setKey, lookupB, List.foldl]
    simp
    norm_num

/-- C4 (code bug): a settlement whose payer id is unknown.  With known
people `[A]` and the single entry `settlement, payer "ghost", split
[A:20]`, the settlement branch runs `balances["ghost"] -= 20` without
the null-guard it applies everywhere else, so `"ghost"` receives
`undefined - 20 = NaN` (modelled `none`) instead of being lazily
initialised to 0 and adjusted to −20: the aggregator does not return a
well-defined numeric balance for every referenced id. -/
theorem C4_unknown_settlement_payer :
    calculateNetBalances ["A"] [⟨"ghost", [("A", 20)], .settlement⟩]
      = [("A", some 20), ("ghost", none)]
    ∧ lookupB (calculateNetBalances ["A"] [⟨"ghost", [("A", 20)], .settlement⟩])
        "ghost" = some none := by
  have h : calculateNetBalances ["A"] [⟨"ghost", [("A", 20)], .settlement⟩]
      = [("A", some 20), ("ghost", none)] := by
    simp only [calculateNetBalances, initBalances, applyEntry, applyExpenseSplit,
      applySettlementSplit, adjust, ensure, setKey, lookupB, List.foldl]
    simp
  refine ⟨h, ?_⟩
  rw [h]
  simp [lookupB]

/-- Counterexample to C5 as stated: for the entry set consisting of a
single settlement with unknown payer "ghost", the balance object
contains the `NaN` produced by the unguarded `balances[payerId] -=`
update, so the sum of its values is not a rational number at all — in
particular it is not 0 within any epsilon. -/
theorem C5_counterexample :
    ¬ ∃ s : ℚ, sumValues (calculateNetBalances ["A"]
        [⟨"ghost", [("A", 20)], .settlement⟩]) = some s ∧ |s| ≤ 1/100 := by
  rintro ⟨s, hs, -⟩
  have h : sumValues (calculateNetBalances ["A"]
      [⟨"ghost", [("A", 20)], .settlement⟩]) = none := by
    simp only [calculateNetBalances, initBalances, applyEntry, applyExpenseSplit,
      applySettlementSplit, adjust, ensure, setKey, lookupB, List.foldl, sumValues]
    simp
  rw [h] at hs
  exact Option.noConfusion hs

/-- Witness for C5 (amended) on a concrete two-entry ledger (one
expense, one settlement whose payer B is known). -/
theorem C5_zero_sum_witness :
    sumValues (calculateNetBalances ["A", "B"]
      [⟨"A", [("B", 5)], .expense⟩, ⟨"B", [("A", 5)], .settlement⟩]) = some 0 :=
  C5_zero_sum ["A", "B"]
    [⟨"A", [("B", 5)], .expense⟩, ⟨"B", [("A", 5)], .settlement⟩]
    (by
      intro e he hk
      fin_cases he <;> simp_all)

/-! ## Debt-simplifier lemmas -/

theorem paidFrom_nil (id : String) : paidFrom [] id = 0 := rfl

theorem recvTo_nil (id : String) : recvTo [] id = 0 := rfl

theorem paidFrom_cons (t : Transfer) (ts : List Transfer) (id : String) :
    paidFrom (t :: ts) id = (if t.fromId = id then t.amount else 0) + paidFrom ts id := by
  by_cases h : t.fromId = id <;> simp [paidFrom, List.filter_cons, h]

theorem recvTo_cons (t : Transfer) (ts : List Transfer) (id : String) :
    recvTo (t :: ts) id = (if t.toId = id then t.amount else 0) + recvTo ts id := by
  by_cases h : t.toId = id <;> simp [recvTo, List.filter_cons, h]

theorem paidFrom_eq_zero {ts : List Transfer} {id : String}
    (h : ∀ t ∈ ts, t.fromId ≠ id) : paidFrom ts id = 0 := by
  induction ts with
  | nil => rfl
  | cons t ts ih =>
      rw [paidFrom_cons, if_neg (h t (List.mem_cons_self _ _)),
        ih (fun t ht => h t (List.mem_cons_of_mem _ ht))]
      ring

theorem recvTo_eq_zero {ts : List Transfer} {id : String}
    (h : ∀ t ∈ ts, t.toId ≠ id) : recvTo ts id = 0 := by
  induction ts with
  | nil => rfl
  | cons t ts ih =>
      rw [recvTo_cons, if_neg (h t (List.mem_cons_self _ _)),
        ih (fun t ht => h t (List.mem_cons_of_mem _ ht))]
      ring

theorem sum_map_add {α : Type} (l : List α) (f g : α → ℚ) :
    (l.map (fun x => f x + g x)).sum = (l.map f).sum + (l.map g).sum := by
  induction l with
  | nil => simp
  | cons x xs ih => simp [ih]; ring

theorem sum_if_single :
    ∀ (d : List (String × ℚ)) (a : String) (x : ℚ),
      (d.map Prod.fst).Nodup → a ∈ d.map Prod.fst →
      (d.map (fun p => if a = p.1 then x else 0)).sum = x := by
  intro d
  induction d with
  | nil => intro a x _ ha; simp at ha
  | cons p rest ih =>
      intro a x hnd ha
      simp only [List.map_cons, List.sum_cons]
      by_cases h : a = p.1
      · rw [if_pos h]
        have hnotin : p.1 ∉ rest.map Prod.fst := (List.nodup_cons.mp hnd).1
        have hzero : (rest.map (fun q => if a = q.1 then x else 0)).sum = 0 := by
          apply List.sum_eq_zero
          intro y hy
          obtain ⟨q, hq, rfl⟩ := List.mem_map.mp hy
          rw [if_neg]
          intro hh
          exact hnotin (h ▸ hh ▸ List.mem_map_of_mem Prod.fst hq)
        rw [hzero]
        ring
      · rw [if_neg h]
        have ha' : a ∈ rest.map Prod.fst := by
          simp only [List.map_cons] at ha
          rcases List.mem_cons.mp ha with h1 | h1
          · exact absurd h1 h
          · exact h1
        rw [ih a x (List.nodup_cons.mp hnd).2 ha']
        ring

theorem sum_paidFrom :
    ∀ (ts : List Transfer) (d : List (String × ℚ)),
      (d.map Prod.fst).Nodup → (∀ t ∈ ts, t.fromId ∈ d.map Prod.fst) →
      (d.map (fun p => paidFrom ts p.1)).sum = (ts.map (fun t => t.amount)).sum := by
  intro ts
  induction ts with
  | nil => intro d _ _; simp [paidFrom_nil]
  | cons t ts ih =>
      intro d hnd hmem
      have h1 : d.map (fun p => paidFrom (t :: ts) p.1)
          = d.map (fun p => (if t.fromId = p.1 then t.amount else 0) + paidFrom ts p.1) := by
        apply List.map_congr_left
        intro p _
        rw [paidFrom_cons]
      rw [h1, sum_map_add,
        sum_if_single d t.fromId t.amount hnd (hmem t (List.mem_cons_self _ _)),
        ih d hnd (fun u hu => hmem u (List.mem_cons_of_mem _ hu))]
      simp

theorem sum_recvTo :
    ∀ (ts : List Transfer) (c : List (String × ℚ)),
      (c.map Prod.fst).Nodup → (∀ t ∈ ts, t.toId ∈ c.map Prod.fst) →
      (c.map (fun p => recvTo ts p.1)).sum = (ts.map (fun t => t.amount)).sum := by
  intro ts
  induction ts with
  | nil => intro c _ _; simp [recvTo_nil]
  | cons t ts ih =>
      intro c hnd hmem
      have h1 : c.map (fun p => recvTo (t :: ts) p.1)
          = c.map (fun p => (if t.toId = p.1 then t.amount else 0) + recvTo ts p.1) := by
        apply List.map_congr_left
        intro p _
        rw [recvTo_cons]
      rw [h1, sum_map_add,
        sum_if_single c t.toId t.amount hnd (hmem t (List.mem_cons_self _ _)),
        ih c hnd (fun u hu => hmem u (List.mem_cons_of_mem _ hu))]
      simp

theorem greedyF_ids :
    ∀ (fuel : ℕ) (d c : List (String × ℚ)), ∀ t ∈ greedyF fuel d c,
      t.fromId ∈ d.map Prod.fst ∧ t.toId ∈ c.map Prod.fst
  | 0, d, c => by simp [greedyF]
  | fuel + 1, [], c => by simp [greedyF]
  | fuel + 1, dp :: ds, [] => by simp [greedyF]
  | fuel + 1, (dId, dAmt) :: ds, (cId, cAmt) :: cs => by
      intro t ht
      simp only [greedyF] at ht
      by_cases hpay : 1/100 < min dAmt cAmt
      · rw [if_pos hpay] at ht
        by_cases hdr : dAmt - min dAmt cAmt ≤ 1/100 <;>
          by_cases hcr : cAmt - min dAmt cAmt ≤ 1/100 <;>
          simp only [hdr, hcr, if_true, if_false] at ht <;>
          rcases List.mem_cons.mp ht with rfl | hmem
        · constructor <;> simp
        · have := greedyF_ids fuel ds cs t hmem
          exact ⟨List.mem_cons_of_mem _ this.1, List.mem_cons_of_mem _ this.2⟩
        · constructor <;> simp
        · have := greedyF_ids fuel ds ((cId, cAmt - min dAmt cAmt) :: cs) t hmem
          refine ⟨List.mem_cons_of_mem _ this.1, ?_⟩
          simpa using this.2
        · constructor <;> simp
        · have := greedyF_ids fuel ((dId, dAmt - min dAmt cAmt) :: ds) cs t hmem
          refine ⟨?_, List.mem_cons_of_mem _ this.2⟩
          simpa using this.1
        · constructor <;> simp
        · have := greedyF_ids fuel ((dId, dAmt - min dAmt cAmt) :: ds)
            ((cId, cAmt - min dAmt cAmt) :: cs) t hmem
          constructor
          · simpa using this.1
          · simpa using this.2
      · rw [if_neg hpay] at ht
        simp at ht

theorem greedyF_amount :
    ∀ (fuel : ℕ) (d c : List (String × ℚ)), ∀ t ∈ greedyF fuel d c,
      1/100 < t.amount
  | 0, d, c => by simp [greedyF]
  | fuel + 1, [], c => by simp [greedyF]
  | fuel + 1, dp :: ds, [] => by simp [greedyF]
  | fuel + 1, (dId, dAmt) :: ds, (cId, cAmt) :: cs => by
      intro t ht
      simp only [greedyF] at ht
      by_cases hpay : 1/100 < min dAmt cAmt
      · rw [if_pos hpay] at ht
        by_cases hdr : dAmt - min dAmt cAmt ≤ 1/100 <;>
          by_cases hcr : cAmt - min dAmt cAmt ≤ 1/100 <;>
          simp only [hdr, hcr, if_true, if_false] at ht <;>
          rcases List.mem_cons.mp ht with rfl | hmem
        · exact hpay
        · exact greedyF_amount fuel ds cs t hmem
        · exact hpay
        · exact greedyF_amount fuel ds ((cId, cAmt - min dAmt cAmt) :: cs) t hmem
        · exact hpay
        · exact greedyF_amount fuel ((dId, dAmt - min dAmt cAmt) :: ds) cs t hmem
        · exact hpay
        · exact greedyF_amount fuel ((dId, dAmt - min dAmt cAmt) :: ds)
            ((cId, cAmt - min dAmt cAmt) :: cs) t hmem
      · rw [if_neg hpay] at ht
        simp at ht

/-- The central invariant of the two-pointer loop: with enough fuel,
over lists whose remaining magnitudes all exceed 0.01 and whose ids
are duplicate-free, (1) no debtor pays more than their magnitude,
(2) no creditor receives more than their magnitude, and (3) at
termination at least one side is fully settled — every residual on
that side is at most 0.01. -/
theorem greedyF_main :
    ∀ (fuel : ℕ) (d c : List (String × ℚ)),
      d.length + c.length ≤ fuel →
      (∀ p ∈ d, 1/100 < p.2) → (∀ p ∈ c, 1/100 < p.2) →
      (d.map Prod.fst).Nodup → (c.map Prod.fst).Nodup →
      (∀ p ∈ d, 0 ≤ p.2 - paidFrom (greedyF fuel d c) p.1)
      ∧ (∀ p ∈ c, 0 ≤ p.2 - recvTo (greedyF fuel d c) p.1)
      ∧ ((∀ p ∈ d, p.2 - paidFrom (greedyF fuel d c) p.1 ≤ 1/100)
        ∨ (∀ p ∈ c, p.2 - recvTo (greedyF fuel d c) p.1 ≤ 1/100))
  | 0, d, c, hlen, _, _, _, _ => by
      have hd0 : d = [] := List.length_eq_zero.mp (by omega)
      have hc0 : c = [] := List.length_eq_zero.mp (by omega)
      subst hd0
      subst hc0
      exact ⟨by simp, by simp, Or.inl (by simp)⟩
  | fuel + 1, [], c, _, _, hc, _, _ => by
      have hts : greedyF (fuel + 1) [] c = [] := by simp [greedyF]
      rw [hts]
      refine ⟨by simp, ?_, Or.inl (by simp)⟩
      intro p hp
      rw [recvTo_nil]
      linarith [hc p hp]
  | fuel + 1, dp :: ds, [], _, hd, _, _, _ => by
      have hts : greedyF (fuel + 1) (dp :: ds) [] = [] := by simp [greedyF]
      rw [hts]
      refine ⟨?_, by simp, Or.inr (by simp)⟩
      intro p hp
      rw [paidFrom_nil]
      linarith [hd p hp]
  | fuel + 1, (dId, dAmt) :: ds, (cId, cAmt) :: cs, hlen, hd, hc, hnd, hnc => by
      have hdA : 1/100 < dAmt := hd _ (List.mem_cons_self _ _)
      have hcA : 1/100 < cAmt := hc _ (List.mem_cons_self _ _)
      have hpay : 1/100 < min dAmt cAmt := lt_min hdA hcA
      have hd' : ∀ p ∈ ds, 1/100 < p.2 := fun p hp => hd p (List.mem_cons_of_mem _ hp)
      have hc' : ∀ p ∈ cs, 1/100 < p.2 := fun p hp => hc p (List.mem_cons_of_mem _ hp)
      simp only [List.length_cons] at hlen
      simp only [List.map_cons, List.nodup_cons] at hnd hnc
      obtain ⟨hdnotin, hnd'⟩ := hnd
      obtain ⟨hcnotin, hnc'⟩ := hnc
      have hne_d : ∀ p ∈ ds, ¬ (dId = p.1) := by
        intro p hp hh
        apply hdnotin
        rw [show dId = p.1 from hh]
        exact List.mem_map_of_mem Prod.fst hp
      have hne_c : ∀ p ∈ cs, ¬ (cId = p.1) := by
        intro p hp hh
        apply hcnotin
        rw [show cId = p.1 from hh]
        exact List.mem_map_of_mem Prod.fst hp
      by_cases hdr : dAmt - min dAmt cAmt ≤ 1/100 <;>
        by_cases hcr : cAmt - min dAmt cAmt ≤ 1/100
      · -- both sides advance
        have hts : greedyF (fuel + 1) ((dId, dAmt) :: ds) ((cId, cAmt) :: cs)
            = ⟨dId, cId, min dAmt cAmt⟩ :: greedyF fuel ds cs := by
          simp only [greedyF]
          rw [if_pos hpay, if_pos hdr, if_pos hcr]
        obtain ⟨ih1, ih2, ih3⟩ := greedyF_main fuel ds cs (by omega) hd' hc' hnd' hnc'
        have hfrom0 : paidFrom (greedyF fuel ds cs) dId = 0 :=
          paidFrom_eq_zero (fun t ht hh => by
            apply hdnotin
            rw [show dId = t.fromId from hh.symm]
            exact (greedyF_ids fuel ds cs t ht).1)
        have hto0 : recvTo (greedyF fuel ds cs) cId = 0 :=
          recvTo_eq_zero (fun t ht hh => by
            apply hcnotin
            rw [show cId = t.toId from hh.symm]
            exact (greedyF_ids fuel ds cs t ht).2)
        rw [hts]
        refine ⟨?_, ?_, ?_⟩
        · intro p hp
          rcases List.mem_cons.mp hp with rfl | hmem
          · rw [paidFrom_cons, if_pos rfl, hfrom0]
            show 0 ≤ dAmt - (min dAmt cAmt + 0)
            have := min_le_left dAmt cAmt
            linarith
          · rw [paidFrom_cons, if_neg (hne_d p hmem)]
            have := ih1 p hmem
            linarith
        · intro p hp
          rcases List.mem_cons.mp hp with rfl | hmem
          · rw [recvTo_cons, if_pos rfl, hto0]
            show 0 ≤ cAmt - (min dAmt cAmt + 0)
            have := min_le_right dAmt cAmt
            linarith
          · rw [recvTo_cons, if_neg (hne_c p hmem)]
            have := ih2 p hmem
            linarith
        · rcases ih3 with hleft | hright
          · left
            intro p hp
            rcases List.mem_cons.mp hp with rfl | hmem
            · rw [paidFrom_cons, if_pos rfl, hfrom0]
              show dAmt - (min dAmt cAmt + 0) ≤ 1/100
              linarith
            · rw [paidFrom_cons, if_neg (hne_d p hmem)]
              have := hleft p hmem
              linarith
          · right
            intro p hp
            rcases List.mem_cons.mp hp with rfl | hmem
            · rw [recvTo_cons, if_pos rfl, hto0]
              show cAmt - (min dAmt cAmt + 0) ≤ 1/100
              linarith
            · rw [recvTo_cons, if_neg (hne_c p hmem)]
              have := hright p hmem
              linarith
      · -- debtor advances, creditor keeps a remainder above 0.01
        have hcrGT : 1/100 < cAmt - min dAmt cAmt := not_le.mp hcr
        have hts : greedyF (fuel + 1) ((dId, dAmt) :: ds) ((cId, cAmt) :: cs)
            = ⟨dId, cId, min dAmt cAmt⟩
              :: greedyF fuel ds ((cId, cAmt - min dAmt cAmt) :: cs) := by
          simp only [greedyF]
          rw [if_pos hpay, if_pos hdr, if_neg hcr]
        have hc'' : ∀ p ∈ (cId, cAmt - min dAmt cAmt) :: cs, 1/100 < p.2 := by
          intro p hp
          rcases List.mem_cons.mp hp with rfl | hmem
          · exact hcrGT
          · exact hc' p hmem
        have hnc'' : (((cId, cAmt - min dAmt cAmt) :: cs).map Prod.fst).Nodup := by
          simp only [List.map_cons, List.nodup_cons]
          exact ⟨hcnotin, hnc'⟩
        obtain ⟨ih1, ih2, ih3⟩ := greedyF_main fuel ds ((cId, cAmt - min dAmt cAmt) :: cs)
          (by simp only [List.length_cons]; omega) hd' hc'' hnd' hnc''
        have hfrom0 : paidFrom (greedyF fuel ds ((cId, cAmt - min dAmt cAmt) :: cs)) dId = 0 :=
          paidFrom_eq_zero (fun t ht hh => by
            apply hdnotin
            rw [show dId = t.fromId from hh.symm]
            exact (greedyF_ids fuel ds _ t ht).1)
        rw [hts]
        refine ⟨?_, ?_, ?_⟩
        · intro p hp
          rcases List.mem_cons.mp hp with rfl | hmem
          · rw [paidFrom_cons, if_pos rfl, hfrom0]
            show 0 ≤ dAmt - (min dAmt cAmt + 0)
            have := min_le_left dAmt cAmt
            linarith
          · rw [paidFrom_cons, if_neg (hne_d p hmem)]
            have := ih1 p hmem
            linarith
        · intro p hp
          rcases List.mem_cons.mp hp with rfl | hmem
          · rw [recvTo_cons, if_pos rfl]
            have h2 : 0 ≤ (cAmt - min dAmt cAmt)
                - recvTo (greedyF fuel ds ((cId, cAmt - min dAmt cAmt) :: cs)) cId :=
              ih2 (cId, cAmt - min dAmt cAmt) (List.mem_cons_self _ _)
            show 0 ≤ cAmt - (min dAmt cAmt
              + recvTo (greedyF fuel ds ((cId, cAmt - min dAmt cAmt) :: cs)) cId)
            linarith
          · rw [recvTo_cons, if_neg (hne_c p hmem)]
            have := ih2 p (List.mem_cons_of_mem _ hmem)
            linarith
        · rcases ih3 with hleft | hright
          · left
            intro p hp
            rcases List.mem_cons.mp hp with rfl | hmem
            · rw [paidFrom_cons, if_pos rfl, hfrom0]
              show dAmt - (min dAmt cAmt + 0) ≤ 1/100
              linarith
            · rw [paidFrom_cons, if_neg (hne_d p hmem)]
              have := hleft p hmem
              linarith
          · right
            intro p hp
            rcases List.mem_cons.mp hp with rfl | hmem
            · rw [recvTo_cons, if_pos rfl]
              have h2 : (cAmt - min dAmt cAmt)
                  - recvTo (greedyF fuel ds ((cId, cAmt - min dAmt cAmt) :: cs)) cId
                  ≤ 1/100 :=
                hright (cId, cAmt - min dAmt cAmt) (List.mem_cons_self _ _)
              show cAmt - (min dAmt cAmt
                + recvTo (greedyF fuel ds ((cId, cAmt - min dAmt cAmt) :: cs)) cId) ≤ 1/100
              linarith
            · rw [recvTo_cons, if_neg (hne_c p hmem)]
              have := hright p (List.mem_cons_of_mem _ hmem)
              linarith
      · -- creditor advances, debtor keeps a remainder above 0.01
        have hdrGT : 1/100 < dAmt - min dAmt cAmt := not_le.mp hdr
        have hts : greedyF (fuel + 1) ((dId, dAmt) :: ds) ((cId, cAmt) :: cs)
            = ⟨dId, cId, min dAmt cAmt⟩
              :: greedyF fuel ((dId, dAmt - min dAmt cAmt) :: ds) cs := by
          simp only [greedyF]
          rw [if_pos hpay, if_neg hdr, if_pos hcr]
        have hd'' : ∀ p ∈ (dId, dAmt - min dAmt cAmt) :: ds, 1/100 < p.2 := by
          intro p hp
          rcases List.mem_cons.mp hp with rfl | hmem
          · exact hdrGT
          · exact hd' p hmem
        have hnd'' : (((dId, dAmt - min dAmt cAmt) :: ds).map Prod.fst).Nodup := by
          simp only [List.map_cons, List.nodup_cons]
          exact ⟨hdnotin, hnd'⟩
        obtain ⟨ih1, ih2, ih3⟩ := greedyF_main fuel ((dId, dAmt - min dAmt cAmt) :: ds) cs
          (by simp only [List.length_cons]; omega) hd'' hc' hnd'' hnc'
        have hto0 : recvTo (greedyF fuel ((dId, dAmt - min dAmt cAmt) :: ds) cs) cId = 0 :=
          recvTo_eq_zero (fun t ht hh => by
            apply hcnotin
            rw [show cId = t.toId from hh.symm]
            exact (greedyF_ids fuel _ cs t ht).2)
        rw [hts]
        refine ⟨?_, ?_, ?_⟩
        · intro p hp
          rcases List.mem_cons.mp hp with rfl | hmem
          · rw [paidFrom_cons, if_pos rfl]
            have h2 : 0 ≤ (dAmt - min dAmt cAmt)
                - paidFrom (greedyF fuel ((dId, dAmt - min dAmt cAmt) :: ds) cs) dId :=
              ih1 (dId, dAmt - min dAmt cAmt) (List.mem_cons_self _ _)
            show 0 ≤ dAmt - (min dAmt cAmt
              + paidFrom (greedyF fuel ((dId, dAmt - min dAmt cAmt) :: ds) cs) dId)
            linarith
          · rw [paidFrom_cons, if_neg (hne_d p hmem)]
            have := ih1 p (List.mem_cons_of_mem _ hmem)
            linarith
        · intro p hp
          rcases List.mem_cons.mp hp with rfl | hmem
          · rw [recvTo_cons, if_pos rfl, hto0]
            show 0 ≤ cAmt - (min dAmt cAmt + 0)
            have := min_le_right dAmt cAmt
            linarith
          · rw [recvTo_cons, if_neg (hne_c p hmem)]
            have := ih2 p hmem
            linarith
        · rcases ih3 with hleft | hright
          · left
            intro p hp
            rcases List.mem_cons.mp hp with rfl | hmem
            · rw [paidFrom_cons, if_pos rfl]
              have h2 : (dAmt - min dAmt cAmt)
                  - paidFrom (greedyF fuel ((dId, dAmt - min dAmt cAmt) :: ds) cs) dId
                  ≤ 1/100 :=
                hleft (dId, dAmt - min dAmt cAmt) (List.mem_cons_self _ _)
              show dAmt - (min dAmt cAmt
                + paidFrom (greedyF fuel ((dId, dAmt - min dAmt cAmt) :: ds) cs) dId) ≤ 1/100
              linarith
            · rw [paidFrom_cons, if_neg (hne_d p hmem)]
              have := hleft p (List.mem_cons_of_mem _ hmem)
              linarith
          · right
            intro p hp
            rcases List.mem_cons.mp hp with rfl | hmem
            · rw [recvTo_cons, if_pos rfl, hto0]
              show cAmt - (min dAmt cAmt + 0) ≤ 1/100
              linarith
            · rw [recvTo_cons, if_neg (hne_c p hmem)]
              have := hright p hmem
              linarith
      · -- impossible: the side that pays in full always advances
        exfalso
        rcases min_cases dAmt cAmt with ⟨hmin, _⟩ | ⟨hmin, _⟩
        · exact hdr (by rw [hmin]; linarith)
        · exact hcr (by rw [hmin]; linarith)

theorem sortDesc_perm (l : List (String × ℚ)) : List.Perm (sortDesc l) l :=
  List.perm_insertionSort _ l

theorem creditorsOf_amounts (bs : List (String × ℚ)) :
    ∀ p ∈ creditorsOf bs, 1/100 < p.2 := by
  intro p hp
  exact of_decide_eq_true (List.mem_filter.mp hp).2

theorem debtorsOf_amounts (bs : List (String × ℚ)) :
    ∀ p ∈ debtorsOf bs, 1/100 < p.2 := by
  intro p hp
  obtain ⟨q, hq, rfl⟩ := List.mem_map.mp hp
  have h2 : q.2 < -(1/100) := of_decide_eq_true (List.mem_filter.mp hq).2
  show 1/100 < -q.2
  linarith

theorem debtorsOf_keys (bs : List (String × ℚ)) :
    (debtorsOf bs).map Prod.fst
      = (bs.filter (fun p => p.2 < -(1/100))).map Prod.fst := by
  unfold debtorsOf
  rw [List.map_map]
  rfl

theorem filter_keys_nodup {bs : List (String × ℚ)}
    (hnd : (bs.map Prod.fst).Nodup) (f : (String × ℚ) → Bool) :
    ((bs.filter f).map Prod.fst).Nodup :=
  (((List.filter_sublist bs : (bs.filter f).Sublist bs)).map Prod.fst).nodup hnd

theorem mem_creditorsOf_of {bs : List (String × ℚ)} {id : String} {v : ℚ}
    (h : (id, v) ∈ bs) (hv : 1/100 < v) : (id, v) ∈ creditorsOf bs :=
  List.mem_filter.mpr ⟨h, decide_eq_true hv⟩

theorem mem_debtorsOf_of {bs : List (String × ℚ)} {id : String} {v : ℚ}
    (h : (id, v) ∈ bs) (hv : v < -(1/100)) : (id, -v) ∈ debtorsOf bs :=
  List.mem_map_of_mem _ (List.mem_filter.mpr ⟨h, decide_eq_true hv⟩)

theorem creditor_key_mem {bs : List (String × ℚ)} {id : String}
    (h : id ∈ (creditorsOf bs).map Prod.fst) :
    ∃ v, (id, v) ∈ bs ∧ 1/100 < v := by
  obtain ⟨p, hp, rfl⟩ := List.mem_map.mp h
  have h2 := List.mem_filter.mp hp
  exact ⟨p.2, h2.1, of_decide_eq_true h2.2⟩

theorem debtor_key_mem {bs : List (String × ℚ)} {id : String}
    (h : id ∈ (debtorsOf bs).map Prod.fst) :
    ∃ v, (id, v) ∈ bs ∧ v < -(1/100) := by
  obtain ⟨p, hp, rfl⟩ := List.mem_map.mp h
  obtain ⟨q, hq, rfl⟩ := List.mem_map.mp hp
  have h2 := List.mem_filter.mp hq
  exact ⟨q.2, h2.1, of_decide_eq_true h2.2⟩

theorem nodup_keys_val_eq {bs : List (String × ℚ)}
    (hnd : (bs.map Prod.fst).Nodup) :
    ∀ {k : String} {v w : ℚ}, (k, v) ∈ bs → (k, w) ∈ bs → v = w := by
  induction bs with
  | nil =>
      intro k v w hv _
      simp at hv
  | cons p rest ih =>
      intro k v w hv hw
      simp only [List.map_cons, List.nodup_cons] at hnd
      rcases List.mem_cons.mp hv with h1 | h1 <;> rcases List.mem_cons.mp hw with h2 | h2
      · have h3 : ((k, v) : String × ℚ) = (k, w) := h1.trans h2.symm
        injection h3 with h4 h5
      · exfalso
        apply hnd.1
        rw [← h1]
        exact List.mem_map.mpr ⟨(k, w), h2, rfl⟩
      · exfalso
        apply hnd.1
        rw [← h2]
        exact List.mem_map.mpr ⟨(k, v), h1, rfl⟩
      · exact ih hnd.2 h1 h2

theorem balFn_eq_of_not_mem {bs : List (String × ℚ)} {id : String}
    (h : id ∉ bs.map Prod.fst) : balFn bs id = 0 := by
  induction bs with
  | nil => rfl
  | cons p rest ih =>
      simp only [List.map_cons, List.mem_cons, not_or] at h
      show (if p.1 = id then p.2 else balFn rest id) = 0
      rw [if_neg (fun hh => h.1 hh.symm)]
      exact ih h.2

theorem balFn_mem {bs : List (String × ℚ)} {id : String}
    (h : id ∈ bs.map Prod.fst) : (id, balFn bs id) ∈ bs := by
  induction bs with
  | nil => simp at h
  | cons p rest ih =>
      show (id, if p.1 = id then p.2 else balFn rest id) ∈ p :: rest
      by_cases h2 : p.1 = id
      · rw [if_pos h2, ← h2]
        exact List.mem_cons_self _ _
      · rw [if_neg h2]
        simp only [List.map_cons, List.mem_cons] at h
        rcases h with h3 | h3
        · exact absurd h3.symm h2
        · exact List.mem_cons_of_mem _ (ih h3)

theorem foldl_execT_eq :
    ∀ (ts : List Transfer) (f : String → ℚ) (id : String),
      (∀ t ∈ ts, t.fromId ≠ t.toId) →
      ts.foldl execT f id = f id + paidFrom ts id - recvTo ts id := by
  intro ts
  induction ts with
  | nil =>
      intro f id _
      simp [paidFrom_nil, recvTo_nil]
  | cons t ts ih =>
      intro f id hne
      simp only [List.foldl_cons]
      rw [ih (execT f t) id (fun u hu => hne u (List.mem_cons_of_mem _ hu)),
        paidFrom_cons, recvTo_cons]
      unfold execT
      by_cases h1 : id = t.fromId
      · rw [if_pos h1, if_pos h1.symm,
          if_neg (fun hh : t.toId = id => hne t (List.mem_cons_self _ _)
            (h1.symm.trans hh.symm))]
        ring
      · rw [if_neg h1, if_neg (fun hh : t.fromId = id => h1 hh.symm)]
        by_cases h2 : id = t.toId
        · rw [if_pos h2, if_pos h2.symm]
          ring
        · rw [if_neg h2, if_neg (fun hh : t.toId = id => h2 hh.symm)]
          ring

theorem sum_map_sub {α : Type} (l : List α) (f g : α → ℚ) :
    (l.map (fun x => f x - g x)).sum = (l.map f).sum - (l.map g).sum := by
  induction l with
  | nil => simp
  | cons x xs ih => simp [ih]; ring

theorem sum_le_length_mul {l : List ℚ} {bound : ℚ} (h : ∀ x ∈ l, x ≤ bound) :
    l.sum ≤ (l.length : ℚ) * bound := by
  induction l with
  | nil => simp
  | cons x xs ih =>
      simp only [List.sum_cons, List.length_cons]
      have hx := h x (List.mem_cons_self _ _)
      have hxs := ih (fun y hy => h y (List.mem_cons_of_mem _ hy))
      have hexp : ((xs.length + 1 : ℕ) : ℚ) * bound = (xs.length : ℚ) * bound + bound := by
        push_cast
        ring
      rw [hexp]
      linarith

theorem abs_sum_le_length_mul {l : List ℚ} {bound : ℚ} (h : ∀ x ∈ l, |x| ≤ bound) :
    |l.sum| ≤ (l.length : ℚ) * bound := by
  induction l with
  | nil => simp
  | cons x xs ih =>
      simp only [List.sum_cons, List.length_cons]
      have hx := h x (List.mem_cons_self _ _)
      have hxs := ih (fun y hy => h y (List.mem_cons_of_mem _ hy))
      have hexp : ((xs.length + 1 : ℕ) : ℚ) * bound = bound + (xs.length : ℚ) * bound := by
        push_cast
        ring
      rw [hexp]
      calc |x + xs.sum| ≤ |x| + |xs.sum| := abs_add _ _
        _ ≤ bound + (xs.length : ℚ) * bound := by linarith

theorem length_three_filter (bs : List (String × ℚ)) :
    bs.length = (bs.filter (fun p => 1/100 < p.2)).length
      + (bs.filter (fun p => p.2 < -(1/100))).length
      + (bs.filter (fun p => -(1/100) ≤ p.2 ∧ p.2 ≤ 1/100)).length := by
  induction bs with
  | nil => rfl
  | cons p rest ih =>
      by_cases h1 : 1/100 < p.2
      · have h2 : ¬ p.2 < -(1/100) := by linarith
        have h3 : ¬(-(1/100) ≤ p.2 ∧ p.2 ≤ 1/100) := by
          rintro ⟨-, hx⟩
          linarith
        rw [List.filter_cons_of_pos (by simpa using h1),
          List.filter_cons_of_neg (by simpa using h2),
          List.filter_cons_of_neg (by simpa using h3)]
        simp only [List.length_cons]
        omega
      · by_cases h2 : p.2 < -(1/100)
        · have h3 : ¬(-(1/100) ≤ p.2 ∧ p.2 ≤ 1/100) := by
            rintro ⟨hx, -⟩
            linarith
          rw [List.filter_cons_of_neg (by simpa using h1),
            List.filter_cons_of_pos (by simpa using h2),
            List.filter_cons_of_neg (by simpa using h3)]
          simp only [List.length_cons]
          omega
        · have h3 : -(1/100) ≤ p.2 ∧ p.2 ≤ 1/100 := ⟨by linarith, by linarith⟩
          rw [List.filter_cons_of_neg (by simpa using h1),
            List.filter_cons_of_neg (by simpa using h2),
            List.filter_cons_of_pos (by simpa using h3)]
          simp only [List.length_cons]
          omega

theorem sum_three_filter (bs : List (String × ℚ)) :
    (bs.map (fun p => p.2)).sum
      = ((bs.filter (fun p => 1/100 < p.2)).map (fun p => p.2)).sum
        + ((bs.filter (fun p => p.2 < -(1/100))).map (fun p => p.2)).sum
        + ((bs.filter (fun p => -(1/100) ≤ p.2 ∧ p.2 ≤ 1/100)).map (fun p => p.2)).sum := by
  induction bs with
  | nil => simp
  | cons p rest ih =>
      by_cases h1 : 1/100 < p.2
      · have h2 : ¬ p.2 < -(1/100) := by linarith
        have h3 : ¬(-(1/100) ≤ p.2 ∧ p.2 ≤ 1/100) := by
          rintro ⟨-, hx⟩
          linarith
        rw [List.filter_cons_of_pos (by simpa using h1),
          List.filter_cons_of_neg (by simpa using h2),
          List.filter_cons_of_neg (by simpa using h3)]
        simp only [List.map_cons, List.sum_cons]
        rw [ih]
        ring
      · by_cases h2 : p.2 < -(1/100)
        · have h3 : ¬(-(1/100) ≤ p.2 ∧ p.2 ≤ 1/100) := by
            rintro ⟨hx, -⟩
            linarith
          rw [List.filter_cons_of_neg (by simpa using h1),
            List.filter_cons_of_pos (by simpa using h2),
            List.filter_cons_of_neg (by simpa using h3)]
          simp only [List.map_cons, List.sum_cons]
          rw [ih]
          ring
        · have h3 : -(1/100) ≤ p.2 ∧ p.2 ≤ 1/100 := ⟨by linarith, by linarith⟩
          rw [List.filter_cons_of_neg (by simpa using h1),
            List.filter_cons_of_neg (by simpa using h2),
            List.filter_cons_of_pos (by simpa using h3)]
          simp only [List.map_cons, List.sum_cons]
          rw [ih]
          ring

theorem debtorsOf_sum (bs : List (String × ℚ)) :
    ((debtorsOf bs).map (fun p => p.2)).sum
      = -(((bs.filter (fun p => p.2 < -(1/100))).map (fun p => p.2)).sum) := by
  unfold debtorsOf
  rw [List.map_map]
  induction bs.filter (fun p => p.2 < -(1/100)) with
  | nil => simp
  | cons q rest ih =>
      simp only [List.map_cons, List.sum_cons, ih]
      show -q.2 + _ = _
      ring

/-- Every transfer the simplifier emits goes from a debtor id to a
creditor id, and for a duplicate-free balance map those id sets are
disjoint, so `fromId ≠ toId`. -/
theorem simplify_ids {bs : List (String × ℚ)} (hnd : (bs.map Prod.fst).Nodup) :
    ∀ t ∈ calculateSimplifiedDebts bs,
      t.fromId ∈ (debtorsOf bs).map Prod.fst
      ∧ t.toId ∈ (creditorsOf bs).map Prod.fst
      ∧ t.fromId ≠ t.toId := by
  intro t ht
  have hids := greedyF_ids _ _ _ t ht
  have hfrom : t.fromId ∈ (debtorsOf bs).map Prod.fst :=
    (((sortDesc_perm (debtorsOf bs)).map Prod.fst).mem_iff).mp hids.1
  have hto : t.toId ∈ (creditorsOf bs).map Prod.fst :=
    (((sortDesc_perm (creditorsOf bs)).map Prod.fst).mem_iff).mp hids.2
  refine ⟨hfrom, hto, ?_⟩
  intro heq
  obtain ⟨v, hv, hvlt⟩ := debtor_key_mem hfrom
  obtain ⟨w, hw, hwgt⟩ := creditor_key_mem hto
  rw [heq] at hv
  have := nodup_keys_val_eq hnd hv hw
  linarith

/-- C8: the debt simplifier partitions the map's entries into
creditors (balance > 0.01, stored as (id, balance)) and debtors
(balance < −0.01, stored as (id, −balance)), stable-sorts each list
descending by amount, and runs the two-pointer greedy walk
(`greedyF`) whose transfer amount is min(remaining debt, remaining
credit) and whose pointers advance when a remaining magnitude drops to
at most 0.01; on {A:+50, B:−30, C:−20} it returns exactly
[(B→A, 30), (C→A, 20)] in that order. -/
theorem C8_greedy_algorithm :
    (∀ bs : List (String × ℚ),
      creditorsOf bs = bs.filter (fun p => 1/100 < p.2)
      ∧ debtorsOf bs = (bs.filter (fun p => p.2 < -(1/100))).map (fun p => (p.1, -p.2))
      ∧ calculateSimplifiedDebts bs
          = greedyF ((sortDesc (debtorsOf bs)).length + (sortDesc (creditorsOf bs)).length)
            (sortDesc (debtorsOf bs)) (sortDesc (creditorsOf bs)))
    ∧ (∀ l : List (String × ℚ), (sortDesc l).Sorted (fun a b => b.2 ≤ a.2))
    ∧ calculateSimplifiedDebts [("A", 50), ("B", -30), ("C", -20)]
      = [⟨"B", "A", 30⟩, ⟨"C", "A", 20⟩] := by
  refine ⟨fun bs => ⟨rfl, rfl, rfl⟩, ?_, ?_⟩
  · intro l
    letI : IsTotal (String × ℚ) (fun a b => b.2 ≤ a.2) := ⟨fun a b => le_total b.2 a.2⟩
    letI : IsTrans (String × ℚ) (fun a b => b.2 ≤ a.2) :=
      ⟨fun _ _ _ hab hbc => le_trans hbc hab⟩
    exact List.sorted_insertionSort _ l
  · norm_num [calculateSimplifiedDebts, sortDesc, debtorsOf, creditorsOf, greedyF,
      List.insertionSort, List.orderedInsert, List.filter]

/-- C10: for a balance map with duplicate-free ids, every emitted
SuggestedTransfer has amount strictly greater than 0.01 (the emission
guard) and distinct endpoints (a debtor id is never also a creditor
id, since no single balance is both > 0.01 and < −0.01). -/
theorem C10_transfer_wellformed (bs : List (String × ℚ))
    (hnd : (bs.map Prod.fst).Nodup) :
    ∀ t ∈ calculateSimplifiedDebts bs, 1/100 < t.amount ∧ t.fromId ≠ t.toId :=
  fun t ht => ⟨greedyF_amount _ _ _ t ht, (simplify_ids hnd t ht).2.2⟩

/-- Witness for C10 at the balance map {A:+5, B:−5}, whose emitted
transfer list is exactly [B→A, 5]. -/
theorem C10_transfer_wellformed_witness :
    1/100 < (Transfer.mk "B" "A" 5).amount
    ∧ (Transfer.mk "B" "A" 5).fromId ≠ (Transfer.mk "B" "A" 5).toId :=
  C10_transfer_wellformed [("A", 5), ("B", -5)] (by simp) ⟨"B", "A", 5⟩
    (by
      rw [show calculateSimplifiedDebts [("A", 5), ("B", -5)] = [⟨"B", "A", 5⟩] by
        norm_num [calculateSimplifiedDebts, sortDesc, debtorsOf, creditorsOf, greedyF,
          List.insertionSort, List.orderedInsert, List.filter]]
      exact List.mem_singleton_self _)

/-- Counterexample to C2 as stated: on the zero-sum balance map
{A:+5, B:−5} the simplifier emits the single transfer B→A of 5;
executing it with the claim's stated convention — subtract the amount
from the `from` balance, add it to the `to` balance — drives B from −5
to −10, which is not within 0.01 of zero (the stated convention moves
balances away from zero; and for maps that do not sum to zero no
execution convention could settle them). -/
theorem C2_counterexample :
    calculateSimplifiedDebts [("A", 5), ("B", -5)] = [⟨"B", "A", 5⟩]
    ∧ List.foldl execStatedT (balFn [("A", 5), ("B", -5)]) [⟨"B", "A", 5⟩] "B" = -10
    ∧ ¬ (|(-10 : ℚ)| ≤ 1/100) := by
  refine ⟨?_, ?_, by norm_num⟩
  · norm_num [calculateSimplifiedDebts, sortDesc, debtorsOf, creditorsOf, greedyF,
      List.insertionSort, List.orderedInsert, List.filter]
  · simp [execStatedT, balFn]
    norm_num

/-- Core bound for executing the greedy loop's transfers: over any
debtor/creditor lists permuting the map's partition, each id's
discharged balance ends within `n · 0.01` of zero for an exactly
zero-sum, duplicate-free map of `n` entries. -/
theorem simplify_bound_aux (bs d c : List (String × ℚ))
    (hdperm : List.Perm d (debtorsOf bs)) (hcperm : List.Perm c (creditorsOf bs))
    (hnd : (bs.map Prod.fst).Nodup)
    (hsum : (bs.map (fun p => p.2)).sum = 0) (id : String) :
    |balFn bs id + paidFrom (greedyF (d.length + c.length) d c) id
      - recvTo (greedyF (d.length + c.length) d c) id|
      ≤ (bs.length : ℚ) * (1/100) := by
  have hdAmts : ∀ p ∈ d, 1/100 < p.2 := fun p hp => debtorsOf_amounts bs p (hdperm.subset hp)
  have hcAmts : ∀ p ∈ c, 1/100 < p.2 := fun p hp => creditorsOf_amounts bs p (hcperm.subset hp)
  have hndD : (d.map Prod.fst).Nodup := by
    refine (hdperm.map Prod.fst).nodup_iff.mpr ?_
    rw [debtorsOf_keys]
    exact filter_keys_nodup hnd _
  have hndC : (c.map Prod.fst).Nodup := by
    refine (hcperm.map Prod.fst).nodup_iff.mpr ?_
    exact filter_keys_nodup hnd _
  obtain ⟨r1, r2, r3⟩ := greedyF_main (d.length + c.length) d c le_rfl hdAmts hcAmts hndD hndC
  have hfromKeys : ∀ t ∈ greedyF (d.length + c.length) d c, t.fromId ∈ d.map Prod.fst :=
    fun t ht => (greedyF_ids _ _ _ t ht).1
  have htoKeys : ∀ t ∈ greedyF (d.length + c.length) d c, t.toId ∈ c.map Prod.fst :=
    fun t ht => (greedyF_ids _ _ _ t ht).2
  generalize hg : greedyF (d.length + c.length) d c = ts at r1 r2 r3 hfromKeys htoKeys ⊢
  -- aggregate sums
  have hTd : (d.map (fun p => paidFrom ts p.1)).sum = (ts.map (fun t => t.amount)).sum :=
    sum_paidFrom ts d hndD hfromKeys
  have hTc : (c.map (fun p => recvTo ts p.1)).sum = (ts.map (fun t => t.amount)).sum :=
    sum_recvTo ts c hndC htoKeys
  have hDsum : (d.map (fun p => p.2)).sum
      = -(((bs.filter (fun p => p.2 < -(1/100))).map (fun p => p.2)).sum) := by
    rw [(hdperm.map (fun p => p.2)).sum_eq]
    exact debtorsOf_sum bs
  have hCsum : (c.map (fun p => p.2)).sum
      = ((bs.filter (fun p => 1/100 < p.2)).map (fun p => p.2)).sum :=
    (hcperm.map (fun p => p.2)).sum_eq
  have hpart := sum_three_filter bs
  have hlenpart := length_three_filter bs
  have hdlen : d.length = (bs.filter (fun p => p.2 < -(1/100))).length := by
    rw [hdperm.length_eq]
    unfold debtorsOf
    rw [List.length_map]
  have hclen : c.length = (bs.filter (fun p => 1/100 < p.2)).length :=
    hcperm.length_eq
  have hlenq : (bs.length : ℚ)
      = ((bs.filter (fun p => 1/100 < p.2)).length : ℚ)
        + ((bs.filter (fun p => p.2 < -(1/100))).length : ℚ)
        + ((bs.filter (fun p => -(1/100) ≤ p.2 ∧ p.2 ≤ 1/100)).length : ℚ) := by
    exact_mod_cast hlenpart
  have hE : |((bs.filter (fun p => -(1/100) ≤ p.2 ∧ p.2 ≤ 1/100)).map (fun p => p.2)).sum|
      ≤ ((bs.filter (fun p => -(1/100) ≤ p.2 ∧ p.2 ≤ 1/100)).length : ℚ) * (1/100) := by
    have hall : ∀ x ∈ (bs.filter (fun p => -(1/100) ≤ p.2 ∧ p.2 ≤ 1/100)).map
        (fun p => p.2), |x| ≤ (1/100 : ℚ) := by
      intro x hx
      obtain ⟨p, hp, rfl⟩ := List.mem_map.mp hx
      have hcond : -(1/100) ≤ p.2 ∧ p.2 ≤ 1/100 :=
        of_decide_eq_true (List.mem_filter.mp hp).2
      rw [abs_le]
      exact ⟨by linarith [hcond.1], hcond.2⟩
    have h2 := abs_sum_le_length_mul hall
    rwa [List.length_map] at h2
  by_cases hid : id ∈ bs.map Prod.fst
  · have hvmem : (id, balFn bs id) ∈ bs := balFn_mem hid
    have hn1 : 1 ≤ bs.length := List.length_pos.mpr (List.ne_nil_of_mem hvmem)
    have hn1q : (1:ℚ) ≤ (bs.length : ℚ) := by exact_mod_cast hn1
    by_cases hvd : balFn bs id < -(1/100)
    · -- debtor id
      have hmemD : (id, -(balFn bs id)) ∈ d := hdperm.mem_iff.mpr (mem_debtorsOf_of hvmem hvd)
      have hrecv : recvTo ts id = 0 := by
        apply recvTo_eq_zero
        intro t ht hh
        obtain ⟨w, hw, hwgt⟩ := creditor_key_mem
          ((hcperm.map Prod.fst).mem_iff.mp (htoKeys t ht))
        rw [hh] at hw
        have := nodup_keys_val_eq hnd hvmem hw
        linarith
      have hres0 : 0 ≤ -(balFn bs id) - paidFrom ts id := r1 (id, -(balFn bs id)) hmemD
      rw [hrecv]
      rcases r3 with hleft | hright
      · have hres1 : -(balFn bs id) - paidFrom ts id ≤ 1/100 :=
          hleft (id, -(balFn bs id)) hmemD
        rw [abs_le]
        constructor
        · linarith
        · linarith
      · have hsumc : (c.map (fun p => p.2 - recvTo ts p.1)).sum
            ≤ (c.length : ℚ) * (1/100) := by
          have hall : ∀ x ∈ c.map (fun p => p.2 - recvTo ts p.1), x ≤ (1/100 : ℚ) := by
            intro x hx
            obtain ⟨p, hp, rfl⟩ := List.mem_map.mp hx
            exact hright p hp
          have h2 := sum_le_length_mul hall
          rwa [List.length_map] at h2
        have hCT : (c.map (fun p => p.2 - recvTo ts p.1)).sum
            = (c.map (fun p => p.2)).sum - (ts.map (fun t => t.amount)).sum := by
          rw [sum_map_sub, hTc]
        have hallD : ∀ x ∈ d.map (fun p => p.2 - paidFrom ts p.1), 0 ≤ x := by
          intro x hx
          obtain ⟨p, hp, rfl⟩ := List.mem_map.mp hx
          exact r1 p hp
        have hsingle : -(balFn bs id) - paidFrom ts id
            ≤ (d.map (fun p => p.2 - paidFrom ts p.1)).sum :=
          List.single_le_sum hallD _
            (List.mem_map.mpr ⟨(id, -(balFn bs id)), hmemD, rfl⟩)
        have hDT : (d.map (fun p => p.2 - paidFrom ts p.1)).sum
            = (d.map (fun p => p.2)).sum - (ts.map (fun t => t.amount)).sum := by
          rw [sum_map_sub, hTd]
        have hclenq : (c.length : ℚ) = ((bs.filter (fun p => 1/100 < p.2)).length : ℚ) := by
          exact_mod_cast hclen
        rw [abs_le]
        constructor
        · linarith [hE, abs_nonneg (((bs.filter (fun p => -(1/100) ≤ p.2 ∧ p.2 ≤ 1/100)).map
            (fun p => p.2)).sum), neg_abs_le (((bs.filter (fun p => -(1/100) ≤ p.2
            ∧ p.2 ≤ 1/100)).map (fun p => p.2)).sum), le_abs_self (((bs.filter
            (fun p => -(1/100) ≤ p.2 ∧ p.2 ≤ 1/100)).map (fun p => p.2)).sum)]
        · linarith
    · by_cases hvc : 1/100 < balFn bs id
      · -- creditor id
        have hmemC : (id, balFn bs id) ∈ c := hcperm.mem_iff.mpr (mem_creditorsOf_of hvmem hvc)
        have hpaid : paidFrom ts id = 0 := by
          apply paidFrom_eq_zero
          intro t ht hh
          obtain ⟨w, hw, hwlt⟩ := debtor_key_mem
            ((hdperm.map Prod.fst).mem_iff.mp (hfromKeys t ht))
          rw [hh] at hw
          have := nodup_keys_val_eq hnd hvmem hw
          linarith
        have hres0 : 0 ≤ balFn bs id - recvTo ts id := r2 (id, balFn bs id) hmemC
        rw [hpaid]
        rcases r3 with hleft | hright
        · have hsumd : (d.map (fun p => p.2 - paidFrom ts p.1)).sum
              ≤ (d.length : ℚ) * (1/100) := by
            have hall : ∀ x ∈ d.map (fun p => p.2 - paidFrom ts p.1), x ≤ (1/100 : ℚ) := by
              intro x hx
              obtain ⟨p, hp, rfl⟩ := List.mem_map.mp hx
              exact hleft p hp
            have h2 := sum_le_length_mul hall
            rwa [List.length_map] at h2
          have hDT : (d.map (fun p => p.2 - paidFrom ts p.1)).sum
              = (d.map (fun p => p.2)).sum - (ts.map (fun t => t.amount)).sum := by
            rw [sum_map_sub, hTd]
          have hallC : ∀ x ∈ c.map (fun p => p.2 - recvTo ts p.1), 0 ≤ x := by
            intro x hx
            obtain ⟨p, hp, rfl⟩ := List.mem_map.mp hx
            exact r2 p hp
          have hsingle : balFn bs id - recvTo ts id
              ≤ (c.map (fun p => p.2 - recvTo ts p.1)).sum :=
            List.single_le_sum hallC _
              (List.mem_map.mpr ⟨(id, balFn bs id), hmemC, rfl⟩)
          have hCT : (c.map (fun p => p.2 - recvTo ts p.1)).sum
              = (c.map (fun p => p.2)).sum - (ts.map (fun t => t.amount)).sum := by
            rw [sum_map_sub, hTc]
          have hdlenq : (d.length : ℚ)
              = ((bs.filter (fun p => p.2 < -(1/100))).length : ℚ) := by
            exact_mod_cast hdlen
          rw [abs_le]
          constructor
          · linarith
          · linarith [hE, neg_abs_le (((bs.filter (fun p => -(1/100) ≤ p.2
              ∧ p.2 ≤ 1/100)).map (fun p => p.2)).sum), le_abs_self (((bs.filter
              (fun p => -(1/100) ≤ p.2 ∧ p.2 ≤ 1/100)).map (fun p => p.2)).sum)]
        · have hres1 : balFn bs id - recvTo ts id ≤ 1/100 :=
            hright (id, balFn bs id) hmemC
          rw [abs_le]
          constructor
          · linarith
          · linarith
      · -- settled id: inside the ±0.01 band, untouched
        have hpaid : paidFrom ts id = 0 := by
          apply paidFrom_eq_zero
          intro t ht hh
          obtain ⟨w, hw, hwlt⟩ := debtor_key_mem
            ((hdperm.map Prod.fst).mem_iff.mp (hfromKeys t ht))
          rw [hh] at hw
          have := nodup_keys_val_eq hnd hvmem hw
          linarith
        have hrecv : recvTo ts id = 0 := by
          apply recvTo_eq_zero
          intro t ht hh
          obtain ⟨w, hw, hwgt⟩ := creditor_key_mem
            ((hcperm.map Prod.fst).mem_iff.mp (htoKeys t ht))
          rw [hh] at hw
          have := nodup_keys_val_eq hnd hvmem hw
          linarith
        rw [hpaid, hrecv, abs_le]
        push_neg at hvd hvc
        constructor
        · linarith
        · linarith
  · -- id not in the map at all
    have hbal : balFn bs id = 0 := balFn_eq_of_not_mem hid
    have hpaid : paidFrom ts id = 0 := by
      apply paidFrom_eq_zero
      intro t ht hh
      obtain ⟨v, hv, -⟩ := debtor_key_mem ((hdperm.map Prod.fst).mem_iff.mp (hfromKeys t ht))
      apply hid
      rw [← hh]
      exact List.mem_map.mpr ⟨(t.fromId, v), hv, rfl⟩
    have hrecv : recvTo ts id = 0 := by
      apply recvTo_eq_zero
      intro t ht hh
      obtain ⟨v, hv, -⟩ := creditor_key_mem ((hcperm.map Prod.fst).mem_iff.mp (htoKeys t ht))
      apply hid
      rw [← hh]
      exact List.mem_map.mpr ⟨(t.toId, v), hv, rfl⟩
    rw [hbal, hpaid, hrecv]
    have hn0 : (0:ℚ) ≤ (bs.length : ℚ) := by positivity
    rw [abs_le]
    constructor
    · linarith
    · linarith

/-- C2 (amended): for every balance map with duplicate-free ids whose
values sum to exactly zero, executing every emitted SuggestedTransfer
in order in the discharging direction — adding each amount to the
from-person's balance (they owe that much less) and subtracting it
from the to-person's balance (they are owed that much less) — leaves
every person's balance within 0.01·n of zero, where n is the number of
entries in the map.  (The per-person bound cannot be 0.01: the greedy
walk abandons a residual of up to 0.01 on each settled id and ignores
ids inside the ±0.01 band, and those residuals can accumulate on one
remaining id.) -/
theorem C2_execute_transfers (bs : List (String × ℚ))
    (hnd : (bs.map Prod.fst).Nodup)
    (hsum : (bs.map (fun p => p.2)).sum = 0) (id : String) :
    |List.foldl execT (balFn bs) (calculateSimplifiedDebts bs) id|
      ≤ (bs.length : ℚ) * (1/100) := by
  rw [foldl_execT_eq (calculateSimplifiedDebts bs) (balFn bs) id
    (fun t ht => (simplify_ids hnd t ht).2.2)]
  exact simplify_bound_aux bs (sortDesc (debtorsOf bs)) (sortDesc (creditorsOf bs))
    (sortDesc_perm _) (sortDesc_perm _) hnd hsum id

/-- Witness for C2 (amended) on the zero-sum map {A:+50, B:−30, C:−20}
at id B. -/
theorem C2_execute_transfers_witness :
    (([("A", (50:ℚ)), ("B", -30), ("C", -20)].map Prod.fst).Nodup)
    ∧ ([("A", (50:ℚ)), ("B", -30), ("C", -20)].map (fun p => p.2)).sum = 0
    ∧ |List.foldl execT (balFn [("A", 50), ("B", -30), ("C", -20)])
        (calculateSimplifiedDebts [("A", 50), ("B", -30), ("C", -20)]) "B"|
      ≤ (([("A", (50:ℚ)), ("B", -30), ("C", -20)].length : ℚ)) * (1/100) :=
  ⟨by simp, by norm_num,
    C2_execute_transfers [("A", 50), ("B", -30), ("C", -20)] (by simp) (by norm_num) "B"⟩

end SplitWise
